import Mathlib

/-!
Verification of the trigger.dev Rails host library (`src/index.ts` and the
Ruby client `src/ruby/trigger_dev.rb`).

The host reads the child process's stdout line by line.  Lines starting with
the marker `__TRIGGER_EVENT__:` carry a JSON-encoded event; the remainder of
the line is parsed with `JSON.parse` and dispatched (`handleTriggerEvent`) to
one of the host operations (heartbeat keep-alive, durable waits, structured
log, metadata set/append).  Handlers are chained on a single promise so they
run strictly serialized; acknowledgment-requiring events cause the sentinel
line `__ACK__\n` to be written to the child's stdin once the handler settles.
On process close the chain is drained and the invocation resolves (exit code
0) or rejects (non-zero or signal) with a composed error message.

Text is modelled as `List Char` (named `Str` below).  JSON numeric literals
are modelled exactly for integers; non-integer numeric literals (fraction or
exponent part) are carried opaquely as their lexeme (`Json.numF`), faithful
to the grammar accepted by `JSON.parse` up to that representation.  The
`\uXXXX` string escape is supported for non-surrogate scalar values.
-/

namespace TriggerRails

/-- Character lists stand in for JavaScript strings. -/
abbrev Str := List Char

/-- JSON values as produced by `JSON.parse`.  `num` holds integer literals;
`numF` holds the verbatim lexeme of a non-integer numeric literal. -/
inductive Json where
  | null
  | bool (b : Bool)
  | num (n : Int)
  | numF (lexeme : Str)
  | str (s : Str)
  | arr (elems : List Json)
  | obj (fields : List (Str × Json))

/-- Whitespace characters skipped by `JSON.parse` between tokens. -/
def isWsChar (c : Char) : Bool :=
  c = ' ' || c = '\t' || c = '\n' || c = '\r'

/-- Drop leading JSON whitespace. -/
def skipWs : Str → Str
  | [] => []
  | c :: cs => if isWsChar c then skipWs cs else c :: cs

/-- Value of a decimal digit character. -/
def digitVal (c : Char) : Nat := c.toNat - 48

/-- Decimal digit test, phrased over code points. -/
def isDigitChar (c : Char) : Bool := decide (48 ≤ c.toNat) && decide (c.toNat ≤ 57)

/-- Longest leading run of decimal digits. -/
def takeDigits : Str → Str × Str
  | [] => ([], [])
  | c :: cs =>
    if isDigitChar c then
      let p := takeDigits cs
      (c :: p.1, p.2)
    else ([], c :: cs)

/-- Big-endian decimal digit run to a natural number. -/
def digitsToNat (ds : Str) : Nat :=
  ds.foldl (fun a c => a * 10 + digitVal c) 0

/-- Value of a hexadecimal digit character, if it is one. -/
def hexVal (c : Char) : Option Nat :=
  if '0' ≤ c ∧ c ≤ '9' then some (c.toNat - 48)
  else if 'a' ≤ c ∧ c ≤ 'f' then some (c.toNat - 87)
  else if 'A' ≤ c ∧ c ≤ 'F' then some (c.toNat - 55)
  else none

/-- Combine a `\uXXXX` escape; surrogate code points are rejected (the model
covers the scalar-value fragment of JSON strings). -/
def hexQuad (h1 h2 h3 h4 : Char) : Option Nat := do
  let a ← hexVal h1
  let b ← hexVal h2
  let c ← hexVal h3
  let d ← hexVal h4
  let v := ((a * 16 + b) * 16 + c) * 16 + d
  if 0xD800 ≤ v ∧ v < 0xE000 then none else some v

/-- Single-character escapes accepted after a backslash by `JSON.parse`. -/
def unescapeChar (c : Char) : Option Char :=
  if c = '"' then some '"'
  else if c = '\\' then some '\\'
  else if c = '/' then some '/'
  else if c = 'n' then some '\n'
  else if c = 't' then some '\t'
  else if c = 'r' then some '\r'
  else if c = 'b' then some (Char.ofNat 8)
  else if c = 'f' then some (Char.ofNat 12)
  else none

/-- Parse the body of a JSON string (after the opening quote) up to and
including the closing quote; returns the decoded text and the rest. -/
def parseStrBody : Str → Option (Str × Str)
  | [] => none
  | c :: rest =>
    if c = '"' then some ([], rest)
    else if c = '\\' then
      match rest with
      | [] => none
      | 'u' :: h1 :: h2 :: h3 :: h4 :: rest2 => do
        let v ← hexQuad h1 h2 h3 h4
        let p ← parseStrBody rest2
        pure (Char.ofNat v :: p.1, p.2)
      | e :: rest2 => do
        let u ← unescapeChar e
        let p ← parseStrBody rest2
        pure (u :: p.1, p.2)
    else if c.toNat < 32 then none
    else do
      let p ← parseStrBody rest
      pure (c :: p.1, p.2)

/-- Parse the fraction-and-exponent tail of a non-integer numeric literal;
returns the consumed lexeme characters and the rest. -/
def parseNumTail (cs : Str) : Option (Str × Str) :=
  let fracRes : Option (Str × Str) :=
    if cs.head? = some '.' then
      let p := takeDigits cs.tail
      if p.1 = [] then none else some ('.' :: p.1, p.2)
    else some ([], cs)
  match fracRes with
  | none => none
  | some (frac, r1) =>
    if r1.head? = some 'e' ∨ r1.head? = some 'E' then
      let e := r1.head?.getD 'e'
      let r2 := r1.tail
      let sgn : Str × Str :=
        if r2.head? = some '+' ∨ r2.head? = some '-' then
          ([r2.head?.getD '+'], r2.tail)
        else ([], r2)
      let p := takeDigits sgn.2
      if p.1 = [] then none else some (frac ++ e :: sgn.1 ++ p.1, p.2)
    else some (frac, r1)

/-- Parse a JSON numeric literal (the stream starts at its first character).
Integer literals become `Json.num`; literals with a fraction or exponent part
are kept verbatim as `Json.numF`. -/
def parseNumber (cs : Str) : Option (Json × Str) :=
  let sgn : Bool × Str := if cs.head? = some '-' then (true, cs.tail) else (false, cs)
  let p := takeDigits sgn.2
  if p.1 = [] then none
  else if p.1.head? = some '0' ∧ p.1.length ≠ 1 then none
  else if p.2.head? = some '.' ∨ p.2.head? = some 'e' ∨ p.2.head? = some 'E' then
    match parseNumTail p.2 with
    | none => none
    | some (tailLex, rest) =>
      some (Json.numF ((if sgn.1 then ['-'] else []) ++ p.1 ++ tailLex), rest)
  else
    some (Json.num (if sgn.1 then -(digitsToNat p.1 : Int) else (digitsToNat p.1 : Int)), p.2)

mutual

/-- Fuel-indexed JSON value parser (models `JSON.parse` on one value). -/
def parseVal : Nat → Str → Option (Json × Str)
  | 0, _ => none
  | fuel + 1, cs =>
    match skipWs cs with
    | [] => none
    | c :: rest =>
      if c = 'n' then
        if ("ull".data).isPrefixOf rest then some (Json.null, rest.drop 3) else none
      else if c = 't' then
        if ("rue".data).isPrefixOf rest then some (Json.bool true, rest.drop 3) else none
      else if c = 'f' then
        if ("alse".data).isPrefixOf rest then some (Json.bool false, rest.drop 4) else none
      else if c = '"' then
        (parseStrBody rest).map (fun p => (Json.str p.1, p.2))
      else if c = '[' then
        let inner := skipWs rest
        if inner.head? = some ']' then some (Json.arr [], inner.tail)
        else (parseElems fuel inner).map (fun p => (Json.arr p.1, p.2))
      else if c = '{' then
        let inner := skipWs rest
        if inner.head? = some '}' then some (Json.obj [], inner.tail)
        else (parseMembers fuel inner).map (fun p => (Json.obj p.1, p.2))
      else parseNumber (c :: rest)

/-- Comma-separated array elements, consuming the closing bracket. -/
def parseElems : Nat → Str → Option (List Json × Str)
  | 0, _ => none
  | fuel + 1, cs => do
    let (v, r1) ← parseVal fuel cs
    let r2 := skipWs r1
    if r2.head? = some ',' then do
      let (vs, r4) ← parseElems fuel r2.tail
      pure (v :: vs, r4)
    else if r2.head? = some ']' then pure ([v], r2.tail)
    else none

/-- Comma-separated object members, consuming the closing brace. -/
def parseMembers : Nat → Str → Option (List (Str × Json) × Str)
  | 0, _ => none
  | fuel + 1, cs =>
    let cs1 := skipWs cs
    if cs1.head? = some '"' then do
      let (k, r1) ← parseStrBody cs1.tail
      let r2 := skipWs r1
      if r2.head? = some ':' then do
        let (v, r3) ← parseVal fuel r2.tail
        let r4 := skipWs r3
        if r4.head? = some ',' then do
          let (ms, r5) ← parseMembers fuel r4.tail
          pure ((k, v) :: ms, r5)
        else if r4.head? = some '}' then pure ([(k, v)], r4.tail)
        else none
      else none
    else none

end

/-- Model of `JSON.parse`: parse one value, then require only trailing
whitespace.  Returns `none` exactly where `JSON.parse` throws. -/
def jsonParse (cs : Str) : Option Json :=
  match parseVal (cs.length + 1) cs with
  | some (v, rest) => if skipWs rest = [] then some v else none
  | none => none

/-- Lower-case hexadecimal digit character. -/
def hexDigitChar (n : Nat) : Char :=
  if n < 10 then Char.ofNat (48 + n) else Char.ofNat (87 + n)

/-- JSON string escaping of one character, as performed by `JSON.generate`. -/
def escapeChar (c : Char) : Str :=
  if c = '"' then ['\\', '"']
  else if c = '\\' then ['\\', '\\']
  else if c = '\n' then ['\\', 'n']
  else if c = '\t' then ['\\', 't']
  else if c = '\r' then ['\\', 'r']
  else if c = Char.ofNat 8 then ['\\', 'b']
  else if c = Char.ofNat 12 then ['\\', 'f']
  else if c.toNat < 32 then
    ['\\', 'u', '0', '0', hexDigitChar (c.toNat / 16), hexDigitChar (c.toNat % 16)]
  else [c]

/-- JSON string escaping of a whole string body. -/
def escapeStr (s : Str) : Str := (s.map escapeChar).flatten

/-- The decimal digit character for a value below ten. -/
def digitChar (d : Nat) : Char :=
  if d = 0 then '0'
  else if d = 1 then '1'
  else if d = 2 then '2'
  else if d = 3 then '3'
  else if d = 4 then '4'
  else if d = 5 then '5'
  else if d = 6 then '6'
  else if d = 7 then '7'
  else if d = 8 then '8'
  else '9'

/-- Decimal digits of a natural, least significant first (fuel-indexed so the
definition is structural and computes by reduction). -/
def natDigitsRevAux : Nat → Nat → Str
  | _, 0 => []
  | 0, _ + 1 => []
  | fuel + 1, n + 1 => digitChar ((n + 1) % 10) :: natDigitsRevAux fuel ((n + 1) / 10)

/-- Value of a little-endian digit-character list. -/
def valRev : Str → Nat
  | [] => 0
  | c :: cs => digitVal c + 10 * valRev cs

/-- Decimal digits of a natural, least significant first; empty for zero. -/
def natDigitsRev (n : Nat) : Str := natDigitsRevAux n n

/-- Decimal rendering of a natural number. -/
def natToChars (n : Nat) : Str := if n = 0 then ['0'] else (natDigitsRev n).reverse

/-- Decimal rendering of an integer (as JavaScript renders integral numbers). -/
def intToChars (n : Int) : Str :=
  if n < 0 then '-' :: natToChars n.natAbs else natToChars n.toNat

/-- Quoted, escaped JSON string literal. -/
def genStr (s : Str) : Str := '"' :: (escapeStr s ++ ['"'])

mutual

/-- Model of Ruby `JSON.generate` (compact rendering, no extra whitespace). -/
def generate : Json → Str
  | .null => "null".data
  | .bool true => "true".data
  | .bool false => "false".data
  | .num n => intToChars n
  | .numF lexeme => lexeme
  | .str s => genStr s
  | .arr [] => ['[', ']']
  | .arr (v :: vs) => '[' :: (genElems (v :: vs) ++ [']'])
  | .obj [] => ['{', '}']
  | .obj (m :: ms) => '{' :: (genMembers (m :: ms) ++ ['}'])

/-- Comma-separated renderings of array elements. -/
def genElems : List Json → Str
  | [] => []
  | [v] => generate v
  | v :: vs => generate v ++ ',' :: genElems vs

/-- Comma-separated renderings of object members. -/
def genMembers : List (Str × Json) → Str
  | [] => []
  | [(k, v)] => genStr k ++ ':' :: generate v
  | (k, v) :: ms => (genStr k ++ ':' :: generate v) ++ ',' :: genMembers ms

end

/-- Characters that need no escaping inside a JSON string literal. -/
def safeChar (c : Char) : Bool :=
  (c != '"') && (c != '\\') && decide (32 ≤ c.toNat)

/-- Strings whose rendering is themselves (no escape sequences needed). -/
def safeStr (s : Str) : Bool := s.all safeChar

mutual

/-- The fragment of JSON values on which the embedding proves the
generate/parse round trip: escape-free strings, integer numerics. -/
def jsonSafe : Json → Bool
  | .null => true
  | .bool _ => true
  | .num _ => true
  | .numF _ => false
  | .str s => safeStr s
  | .arr l => jsonSafeList l
  | .obj l => jsonSafeMembers l

/-- Safety of every array element. -/
def jsonSafeList : List Json → Bool
  | [] => true
  | v :: vs => jsonSafe v && jsonSafeList vs

/-- Safety of every object member (keys must also be escape-free). -/
def jsonSafeMembers : List (Str × Json) → Bool
  | [] => true
  | (k, v) :: ms => safeStr k && jsonSafe v && jsonSafeMembers ms

end

mutual

/-- Fuel needed by `parseVal` to parse the rendering of a value. -/
def jcost : Json → Nat
  | .arr l => 1 + elemsCost l
  | .obj l => 1 + memsCost l
  | _ => 1

/-- Fuel needed by `parseElems`. -/
def elemsCost : List Json → Nat
  | [] => 0
  | v :: vs => 1 + jcost v + elemsCost vs

/-- Fuel needed by `parseMembers`. -/
def memsCost : List (Str × Json) → Nat
  | [] => 0
  | (_, v) :: ms => 1 + jcost v + memsCost ms

end

/-- Head of the remaining stream does not extend a numeric literal. -/
def numBoundary (cs : Str) : Bool :=
  match cs.head? with
  | none => true
  | some c => !(isDigitChar c || c == '.' || c == 'e' || c == 'E')

/-! ### The host library (src/index.ts) -/

/-- The fixed prefix marking structured-event lines on the child's stdout
(`TRIGGER_EVENT_PREFIX` in the source). -/
def eventMarker : Str := "__TRIGGER_EVENT__:".data

/-- The acknowledgment sentinel written to the child's stdin. -/
def ackSentinel : Str := "__ACK__\n".data

def typeKey : Str := "type".data

def messageKey : Str := "message".data

def dateKey : Str := "date".data

def keyKey : Str := "key".data

def valueKey : Str := "value".data

def heartbeatTag : Str := "heartbeat".data

def waitForTag : Str := "wait.for".data

def waitUntilTag : Str := "wait.until".data

def logTag : Str := "log".data

def metadataSetTag : Str := "metadata.set".data

def metadataAppendTag : Str := "metadata.append".data

/-- The six `type` tags with a dedicated case in `handleTriggerEvent`. -/
def knownTags : List Str :=
  [heartbeatTag, waitForTag, waitUntilTag, logTag, metadataSetTag, metadataAppendTag]

/-- One step of JavaScript object construction: a later duplicate key
overwrites the value in place, a fresh key is appended. -/
def objInsert (acc : List (Str × Json)) (kv : Str × Json) : List (Str × Json) :=
  if acc.any (fun p => p.1 == kv.1) then
    acc.map (fun p => if p.1 == kv.1 then (p.1, kv.2) else p)
  else acc ++ [kv]

/-- Own properties of the object `JSON.parse` builds from a member list:
first-occurrence order, last-occurrence value. -/
def jsObjProps (fields : List (Str × Json)) : List (Str × Json) :=
  fields.foldl objInsert []

/-- JavaScript property read `o[k]` on a parsed object (`none` = undefined). -/
def jsGet (fields : List (Str × Json)) (k : Str) : Option Json :=
  ((jsObjProps fields).find? (fun p => p.1 == k)).map (fun p => p.2)

/-- JavaScript object rest-spread: own properties minus the listed keys. -/
def jsRest (fields : List (Str × Json)) (excluded : List Str) : List (Str × Json) :=
  (jsObjProps fields).filter (fun p => !(excluded.contains p.1))

/-- The abstract host operations the dispatcher delegates to: heartbeat
keep-alive, durable waits, structured log, run-metadata mutation. -/
inductive HostOp where
  | heartbeatYield
  | waitFor (opts : List (Str × Json))
  | waitUntil (date : Option Json)
  | logLog (message : Option Json) (attrs : Option (List (Str × Json)))
  | metadataSet (key : Option Json) (value : Option Json)
  | metadataAppend (key : Option Json) (value : Option Json)

/-- Outcome of one dispatcher run: the operations it invoked, and either the
returned needs-acknowledgment flag or a thrown error. -/
structure HandlerRun where
  ops : List HostOp
  result : Except Unit Bool

/-- An environment assigns each host-operation invocation a success flag;
`false` models the operation throwing. -/
def opRun (env : HostOp → Bool) (op : HostOp) (needsAck : Bool) : HandlerRun :=
  ⟨[op], if env op then Except.ok needsAck else Except.error ()⟩

/-- Model of `handleTriggerEvent` (src/index.ts lines 42-69): switch on
`event.type`, invoke the matching host operation, return whether the event
requires acknowledgment.  Property access on `null` throws (JavaScript
TypeError); any unmatched tag or non-object value falls to the default case,
a no-op returning `false`. -/
def handleTriggerEvent (env : HostOp → Bool) (event : Json) : HandlerRun :=
  match event with
  | .null => ⟨[], .error ()⟩
  | .obj fields =>
    match jsGet fields typeKey with
    | some (.str tag) =>
      if tag = heartbeatTag then opRun env .heartbeatYield false
      else if tag = waitForTag then
        opRun env (.waitFor (jsRest fields [typeKey])) true
      else if tag = waitUntilTag then
        opRun env (.waitUntil (jsGet fields dateKey)) true
      else if tag = logTag then
        let attrs := jsRest fields [typeKey, messageKey]
        opRun env
          (.logLog (jsGet fields messageKey) (if attrs.isEmpty then none else some attrs))
          false
      else if tag = metadataSetTag then
        opRun env (.metadataSet (jsGet fields keyKey) (jsGet fields valueKey)) false
      else if tag = metadataAppendTag then
        opRun env (.metadataAppend (jsGet fields keyKey) (jsGet fields valueKey)) false
      else ⟨[], .ok false⟩
    | _ => ⟨[], .ok false⟩
  | _ => ⟨[], .ok false⟩

/-- Observable actions of one chained event handler. -/
inductive TraceEntry where
  | invoke (op : HostOp)
  | logError
  | ack

/-- Model of `sendAcknowledgment`: the sentinel is written only while the stdin stream is writable (src/index.ts lines 266-270). -/
def ackWrites (stdinWritable : Bool) : List TraceEntry :=
  if stdinWritable then [TraceEntry.ack] else []

/-- The continuation `processEventLine` chains for one decoded event: run the
handler; on success send the acknowledgment exactly when the handler asked
for it; on a thrown error log the failure and always send the
acknowledgment (src/index.ts lines 290-303). -/
def runChained (env : HostOp → Bool) (stdinWritable : Bool) (event : Json) :
    List TraceEntry :=
  let h := handleTriggerEvent env event
  h.ops.map TraceEntry.invoke ++
    (match h.result with
     | .ok true => ackWrites stdinWritable
     | .ok false => []
     | .error _ => TraceEntry.logError :: ackWrites stdinWritable)

def isAck : TraceEntry → Bool
  | .ack => true
  | _ => false

/-- Number of acknowledgment writes in a trace. -/
def countAck (tr : List TraceEntry) : Nat := (tr.filter isAck).length

def invokeOf : TraceEntry → Option HostOp
  | .invoke op => some op
  | _ => none

def isWaitOp : HostOp → Bool
  | .waitFor _ => true
  | .waitUntil _ => true
  | _ => false

/-- Model of `processEventLine` (src/index.ts lines 275-309): a line without
the marker is plain output; a marked line is parsed, a parse failure is
reclassified as plain output, and a parsed event is appended to the event
chain. -/
def processEventLine (line : Str) (stdoutLines : List Str) (eventChain : List Json) :
    List Str × List Json :=
  if eventMarker.isPrefixOf line then
    match jsonParse (line.drop eventMarker.length) with
    | some event => (stdoutLines, eventChain ++ [event])
    | none => (stdoutLines ++ [line], eventChain)
  else (stdoutLines ++ [line], eventChain)

/-- The event a stdout line decodes to, if any. -/
def decodeEventLine (line : Str) : Option Json :=
  if eventMarker.isPrefixOf line then jsonParse (line.drop eventMarker.length)
  else none

/-- Fold of `processEventLine` over the whole stdout line stream, from the
empty result and the resolved initial chain. -/
def processLines (lines : List Str) : List Str × List Json :=
  lines.foldl (fun acc line => processEventLine line acc.1 acc.2) ([], [])

/-- Trace of awaiting the event chain to quiescence: each chained handler
runs to settlement before the next starts. -/
def chainTrace (env : HostOp → Bool) (w : Bool) (chain : List Json) : List TraceEntry :=
  (chain.map (runChained env w)).flatten

/-- Chain trace with each entry tagged by the index (arrival order) of the
event whose handler produced it. -/
def taggedTraceFrom (env : HostOp → Bool) (w : Bool) (i : Nat) :
    List Json → List (Nat × TraceEntry)
  | [] => []
  | e :: es =>
    (runChained env w e).map (fun t => (i, t)) ++ taggedTraceFrom env w (i + 1) es

def chainTraceTagged (env : HostOp → Bool) (w : Bool) (chain : List Json) :
    List (Nat × TraceEntry) :=
  taggedTraceFrom env w 0 chain

/-- The value an invocation resolves with. -/
structure RubyScriptResult where
  stdout : Str
  stderr : Str
  exitCode : Int

def newlineStr : Str := ['\n']

/-- Exit code as recorded by `handleProcessClose`: `code ?? -1`, the `-1`
sentinel standing for termination by a signal (`close` reported `null`). -/
def exitCodeOf (code : Option Nat) : Int :=
  match code with
  | none => -1
  | some c => (c : Int)

/-- The human-readable reason embedded in a rejection message. -/
def closeReason (scriptPath : Str) (exitCode : Int) : Str :=
  if exitCode = -1 then scriptPath ++ " was terminated by a signal".data
  else scriptPath ++ " exited with a non-zero code ".data ++ intToChars exitCode

/-- The full rejection message `reason:\nstdout\nstderr`. -/
def closeMessage (scriptPath : Str) (exitCode : Int) (stdout stderr : Str) : Str :=
  closeReason scriptPath exitCode ++ ":\n".data ++ stdout ++ newlineStr ++ stderr

/-- Model of `handleProcessClose` (src/index.ts lines 314-337), reached after
the event chain drained: join stdout lines with newlines, concatenate stderr
chunks, resolve on exit code 0, reject otherwise. -/
def handleProcessClose (code : Option Nat) (stdoutLines stderrChunks : List Str)
    (scriptPath : Str) : Except Str RubyScriptResult :=
  let exitCode := exitCodeOf code
  let stdout := List.intercalate newlineStr stdoutLines
  let stderr := stderrChunks.flatten
  if exitCode ≠ 0 then Except.error (closeMessage scriptPath exitCode stdout stderr)
  else Except.ok ⟨stdout, stderr, exitCode⟩

/-- One whole invocation after the child closed: the drained chain's trace and
the settled result. -/
def runInvocation (env : HostOp → Bool) (w : Bool) (lines stderrChunks : List Str)
    (code : Option Nat) (scriptPath : Str) :
    List TraceEntry × Except Str RubyScriptResult :=
  let pr := processLines lines
  (chainTrace env w pr.2, handleProcessClose code pr.1 stderrChunks scriptPath)

/-- What the public entry decides synchronously, before any spawn. -/
inductive SpawnDecision where
  | precondition (message : Str)
  | spawn (commandArgs : List Str)

/-- Model of the bundle-exec `runRailsScript` precondition phase
(src/index.ts lines 104-117): only `assert(scriptPath)` — the file-existence
oracle is deliberately a parameter that the body never consults, because this
variant performs no existence check before spawning. -/
def runRailsScriptPre (_fsExists : Str → Bool) (scriptPath : Str)
    (scriptArgs : List Str) : SpawnDecision :=
  if scriptPath = [] then SpawnDecision.precondition "Script path is required".data
  else
    SpawnDecision.spawn
      ("exec".data :: "rails".data :: "runner".data :: scriptPath :: scriptArgs)

/-- Model of the standalone `runScript` precondition phase (second variant,
lines 410-417): `assert(scriptPath)` then `assert(fs.existsSync(scriptPath))`
before spawning. -/
def runScriptPre (fsExists : Str → Bool) (scriptPath : Str)
    (scriptArgs : List Str) : SpawnDecision :=
  if scriptPath = [] then SpawnDecision.precondition "Script path is required".data
  else if fsExists scriptPath = false then
    SpawnDecision.precondition ("Script does not exist: ".data ++ scriptPath)
  else SpawnDecision.spawn (scriptPath :: scriptArgs)

/-! ### The Ruby client (src/ruby/trigger_dev.rb) -/

/-- First value bound to a key in a Ruby hash given as an ordered list. -/
def lookupStr (l : List (Str × Json)) (k : Str) : Option Json :=
  (l.find? (fun p => p.1 == k)).map (fun p => p.2)

/-- Ruby `Hash#merge`: keys of the left hash keep their position but take the
right value when present; fresh right keys are appended in order. -/
def rubyMerge (a b : List (Str × Json)) : List (Str × Json) :=
  a.map (fun p => (p.1, (lookupStr b p.1).getD p.2)) ++
    b.filter (fun q => (lookupStr a q.1).isNone)

/-- The hash Ruby `TriggerDev.log(message, **attrs)` builds:
`{ type: "log", message: message }.merge(attrs)`. -/
def rubyLogEvent (message : Str) (attrs : List (Str × Json)) : List (Str × Json) :=
  rubyMerge [(typeKey, Json.str logTag), (messageKey, Json.str message)] attrs

/-- The stdout line `emit_event` writes for a log event:
the marker followed by `JSON.generate` of the event hash. -/
def rubyLogLine (message : Str) (attrs : List (Str × Json)) : Str :=
  eventMarker ++ generate (Json.obj (rubyLogEvent message attrs))

/-- The `type` tag the dispatcher would switch on, if the event is an object
with a string-valued `type` property. -/
def typeTagOf (e : Json) : Option Str :=
  match e with
  | .obj fields =>
    match jsGet fields typeKey with
    | some (.str t) => some t
    | _ => none
  | _ => none

/-! ### Character and digit lemmas -/

theorem char_ne_of_toNat_ne {c d : Char} (h : c.toNat ≠ d.toNat) : c ≠ d :=
  fun he => h (he ▸ rfl)

theorem isDigitChar_toNat {c : Char} (h : isDigitChar c = true) :
    48 ≤ c.toNat ∧ c.toNat ≤ 57 := by
  simpa [isDigitChar] using h

theorem skipWs_cons_of_not_ws {c : Char} (h : isWsChar c = false) (cs : Str) :
    skipWs (c :: cs) = c :: cs := by
  simp [skipWs, h]

theorem digitVal_digitChar {d : Nat} (h : d ≤ 9) : digitVal (digitChar d) = d := by
  interval_cases d <;> rfl

theorem isDigitChar_digitChar {d : Nat} (h : d ≤ 9) : isDigitChar (digitChar d) = true := by
  interval_cases d <;> rfl

theorem digitChar_ne_zero {d : Nat} (h1 : d ≤ 9) (h2 : d ≠ 0) : digitChar d ≠ '0' := by
  interval_cases d <;> first | omega | decide

theorem natDigitsRevAux_val (fuel : Nat) :
    ∀ n, n ≤ fuel → valRev (natDigitsRevAux fuel n) = n := by
  induction fuel with
  | zero => intro n hn; interval_cases n; rfl
  | succ fuel ih =>
    intro n hn
    match n with
    | 0 => rfl
    | m + 1 =>
      have h10 : (m + 1) / 10 ≤ fuel := by
        have hdl : (m + 1) / 10 < m + 1 := Nat.div_lt_self (Nat.succ_pos m) (by omega)
        omega
      have hmod : (m + 1) % 10 ≤ 9 := by omega
      simp only [natDigitsRevAux, valRev, digitVal_digitChar hmod, ih _ h10]
      omega

theorem natDigitsRevAux_digits (fuel : Nat) :
    ∀ n, (natDigitsRevAux fuel n).all isDigitChar = true := by
  induction fuel with
  | zero => intro n; cases n <;> rfl
  | succ fuel ih =>
    intro n
    match n with
    | 0 => rfl
    | m + 1 =>
      have hmod : (m + 1) % 10 ≤ 9 := by omega
      simp [natDigitsRevAux, isDigitChar_digitChar hmod, ih]

theorem natDigitsRevAux_ne_nil {fuel n : Nat} (h1 : n ≠ 0) (h2 : n ≤ fuel) :
    natDigitsRevAux fuel n ≠ [] := by
  cases fuel with
  | zero => omega
  | succ f =>
    cases n with
    | zero => omega
    | succ m => simp [natDigitsRevAux]

theorem natDigitsRevAux_getLast (fuel : Nat) :
    ∀ n, n ≠ 0 → n ≤ fuel → ∀ c, (natDigitsRevAux fuel n).getLast? = some c → c ≠ '0' := by
  induction fuel with
  | zero => intro n h1 h2; exact absurd h2 (by omega)
  | succ fuel ih =>
    intro n h1 h2 c hc
    cases n with
    | zero => exact absurd rfl h1
    | succ m =>
      by_cases hq : (m + 1) / 10 = 0
      · have h10 : m + 1 < 10 := by omega
        have hnil : natDigitsRevAux fuel ((m + 1) / 10) = [] := by
          rw [hq]; cases fuel <;> rfl
        rw [natDigitsRevAux, hnil] at hc
        simp only [List.getLast?_singleton, Option.some.injEq] at hc
        subst hc
        have hmod : (m + 1) % 10 = m + 1 := Nat.mod_eq_of_lt h10
        rw [hmod]
        exact digitChar_ne_zero (by omega) (by omega)
      · have hle : (m + 1) / 10 ≤ fuel := by
          have hdl : (m + 1) / 10 < m + 1 := Nat.div_lt_self (Nat.succ_pos m) (by omega)
          omega
        rw [natDigitsRevAux] at hc
        obtain ⟨x, xs, hx⟩ := List.exists_cons_of_ne_nil (natDigitsRevAux_ne_nil hq hle)
        rw [hx, List.getLast?_cons_cons, ← hx] at hc
        exact ih _ hq hle c hc

theorem natToChars_digits (n : Nat) : (natToChars n).all isDigitChar = true := by
  by_cases h : n = 0
  · subst h; rfl
  · simp [natToChars, h, natDigitsRev, List.all_reverse, natDigitsRevAux_digits]

theorem natToChars_ne_nil (n : Nat) : natToChars n ≠ [] := by
  by_cases h : n = 0
  · subst h; simp [natToChars]
  · simp [natToChars, h, natDigitsRev]
    exact natDigitsRevAux_ne_nil h (le_refl n)

theorem natToChars_head_ne_zero {n : Nat} (h : n ≠ 0) :
    ∀ c, (natToChars n).head? = some c → c ≠ '0' := by
  intro c hc
  rw [natToChars, if_neg h, natDigitsRev] at hc
  rw [List.head?_reverse] at hc
  exact natDigitsRevAux_getLast n n h (le_refl n) c hc

theorem digitsToNat_append_singleton (l : Str) (c : Char) :
    digitsToNat (l ++ [c]) = digitsToNat l * 10 + digitVal c := by
  simp [digitsToNat, List.foldl_append]

theorem digitsToNat_reverse (l : Str) : digitsToNat l.reverse = valRev l := by
  induction l with
  | nil => rfl
  | cons c cs ih =>
    rw [List.reverse_cons, digitsToNat_append_singleton, ih]
    simp only [valRev]
    omega

theorem digitsToNat_natToChars (n : Nat) : digitsToNat (natToChars n) = n := by
  by_cases h : n = 0
  · subst h; rfl
  · rw [natToChars, if_neg h, natDigitsRev, digitsToNat_reverse]
    exact natDigitsRevAux_val n n (le_refl n)

theorem natToChars_length_zero : (natToChars 0).length = 1 := rfl

/-! ### String-body and number parsing lemmas -/

theorem safeChar_spec {c : Char} (h : safeChar c = true) :
    c ≠ '"' ∧ c ≠ '\\' ∧ 32 ≤ c.toNat := by
  simp [safeChar] at h
  exact ⟨h.1.1, h.1.2, h.2⟩

theorem parseStrBody_safe (s : Str) (hs : safeStr s = true) (rest : Str) :
    parseStrBody (s ++ '"' :: rest) = some (s, rest) := by
  induction s with
  | nil => rw [List.nil_append, parseStrBody.eq_def]; simp
  | cons c cs ih =>
    have hc : safeChar c = true ∧ safeStr cs = true := by simpa [safeStr] using hs
    obtain ⟨h1, h2, h3⟩ := safeChar_spec hc.1
    rw [List.cons_append, parseStrBody.eq_def]
    simp only []
    rw [if_neg h1, if_neg h2, if_neg (by omega)]
    simp [ih hc.2]

theorem escapeChar_safe {c : Char} (h : safeChar c = true) : escapeChar c = [c] := by
  obtain ⟨h1, h2, h3⟩ := safeChar_spec h
  rw [escapeChar, if_neg h1, if_neg h2,
    if_neg (char_ne_of_toNat_ne (by rw [show Char.toNat '\n' = 10 from rfl]; omega)),
    if_neg (char_ne_of_toNat_ne (by rw [show Char.toNat '\t' = 9 from rfl]; omega)),
    if_neg (char_ne_of_toNat_ne (by rw [show Char.toNat '\r' = 13 from rfl]; omega)),
    if_neg (char_ne_of_toNat_ne (by rw [show (Char.ofNat 8).toNat = 8 from rfl]; omega)),
    if_neg (char_ne_of_toNat_ne (by rw [show (Char.ofNat 12).toNat = 12 from rfl]; omega)),
    if_neg (by omega)]

theorem escapeStr_safe {s : Str} (hs : safeStr s = true) : escapeStr s = s := by
  induction s with
  | nil => rfl
  | cons c cs ih =>
    have hc : safeChar c = true ∧ safeStr cs = true := by simpa [safeStr] using hs
    simp only [escapeStr, List.map_cons, List.flatten_cons, escapeChar_safe hc.1]
    simpa [escapeStr] using ih hc.2

theorem numBoundary_spec {rest : Str} (h : numBoundary rest = true) :
    ∀ c, rest.head? = some c →
      isDigitChar c = false ∧ c ≠ '.' ∧ c ≠ 'e' ∧ c ≠ 'E' := by
  intro c hc
  rw [numBoundary, hc] at h
  simp at h
  exact ⟨h.1.1.1, h.1.1.2, h.1.2, h.2⟩

theorem takeDigits_append {ds : Str} (hds : ds.all isDigitChar = true) {rest : Str}
    (hr : ∀ c, rest.head? = some c → isDigitChar c = false) :
    takeDigits (ds ++ rest) = (ds, rest) := by
  induction ds with
  | nil =>
    cases rest with
    | nil => rfl
    | cons c cs => simp [takeDigits, hr c rfl]
  | cons c cs ih =>
    have hc : isDigitChar c = true ∧ cs.all isDigitChar = true := by simpa using hds
    simp [takeDigits, hc.1, ih hc.2]

theorem parseNumber_fl {rest : Str} (hb : numBoundary rest = true) :
    ¬(rest.head? = some '.' ∨ rest.head? = some 'e' ∨ rest.head? = some 'E') := by
  rintro (hc | hc | hc)
  · exact (numBoundary_spec hb '.' hc).2.1 rfl
  · exact (numBoundary_spec hb 'e' hc).2.2.1 rfl
  · exact (numBoundary_spec hb 'E' hc).2.2.2 rfl

theorem parseNumber_digits (d : Char) (ds : Str)
    (hall : (d :: ds).all isDigitChar = true)
    (hlz : d = '0' → ds = [])
    (rest : Str) (hb : numBoundary rest = true) :
    parseNumber ((d :: ds) ++ rest) = some (Json.num (digitsToNat (d :: ds) : Int), rest) := by
  have hd : isDigitChar d = true := by
    have h2 := hall
    simp [List.all_cons] at h2
    exact h2.1
  have hdm := isDigitChar_toNat hd
  have hdne : d ≠ '-' := char_ne_of_toNat_ne (by rw [show Char.toNat '-' = 45 from rfl]; omega)
  have htake : takeDigits (d :: (ds ++ rest)) = (d :: ds, rest) := by
    have h := takeDigits_append hall (fun c hc => (numBoundary_spec hb c hc).1)
    simpa using h
  have hc1 : (some d = some '-') = False :=
    eq_false (fun hcon => hdne (Option.some.inj hcon))
  have hc2 : ((d :: ds : Str) = []) = False := eq_false (List.cons_ne_nil d ds)
  have hc3 : (List.head? (d :: ds) = some '0' ∧ List.length (d :: ds) ≠ 1) = False := by
    refine eq_false ?_
    rintro ⟨hh, hlen⟩
    have hd0 : d = '0' := by simpa using hh
    have hnil := hlz hd0
    subst hnil
    simp at hlen
  have hc4 : (rest.head? = some '.' ∨ rest.head? = some 'e' ∨ rest.head? = some 'E') = False :=
    eq_false (parseNumber_fl hb)
  rw [List.cons_append]
  simp only [parseNumber, List.head?_cons, hc1, if_false]
  rw [htake]
  simp only [hc2, hc3, hc4, if_false, Bool.false_eq_true, Bool.true_eq_false, if_true]

theorem parseNumber_neg_digits (d : Char) (ds : Str)
    (hall : (d :: ds).all isDigitChar = true)
    (hlz : d = '0' → ds = [])
    (rest : Str) (hb : numBoundary rest = true) :
    parseNumber ('-' :: ((d :: ds) ++ rest)) =
      some (Json.num (-(digitsToNat (d :: ds) : Int)), rest) := by
  have htake : takeDigits (d :: (ds ++ rest)) = (d :: ds, rest) := by
    have h := takeDigits_append hall (fun c hc => (numBoundary_spec hb c hc).1)
    simpa using h
  have hc1 : (some '-' = some '-') = True := eq_true rfl
  have hc2 : ((d :: ds : Str) = []) = False := eq_false (List.cons_ne_nil d ds)
  have hc3 : (List.head? (d :: ds) = some '0' ∧ List.length (d :: ds) ≠ 1) = False := by
    refine eq_false ?_
    rintro ⟨hh, hlen⟩
    have hd0 : d = '0' := by simpa using hh
    have hnil := hlz hd0
    subst hnil
    simp at hlen
  have hc4 : (rest.head? = some '.' ∨ rest.head? = some 'e' ∨ rest.head? = some 'E') = False :=
    eq_false (parseNumber_fl hb)
  rw [List.cons_append]
  simp only [parseNumber, List.head?_cons, hc1, if_true, List.tail_cons]
  rw [htake]
  simp only [hc2, hc3, hc4, if_false, Bool.false_eq_true, Bool.true_eq_false, if_true]

theorem natToChars_lz {m : Nat} {d : Char} {ds : Str} (hds : natToChars m = d :: ds) :
    d = '0' → ds = [] := by
  intro hd0
  by_cases hm : m = 0
  · subst hm
    have h0 : (['0'] : Str) = d :: ds := hds
    have h1 : '0' = d ∧ [] = ds := by simpa using h0
    exact h1.2.symm
  · exfalso
    refine natToChars_head_ne_zero hm '0' ?_ rfl
    rw [hds, hd0]
    rfl

theorem parseNumber_natToChars (m : Nat) (rest : Str) (hb : numBoundary rest = true) :
    parseNumber (natToChars m ++ rest) = some (Json.num (m : Int), rest) := by
  obtain ⟨d, ds, hds⟩ := List.exists_cons_of_ne_nil (natToChars_ne_nil m)
  have hall := natToChars_digits m
  rw [hds] at hall
  rw [hds, parseNumber_digits d ds hall (natToChars_lz hds) rest hb, ← hds,
    digitsToNat_natToChars]

theorem parseNumber_intToChars (n : Int) (rest : Str) (hb : numBoundary rest = true) :
    parseNumber (intToChars n ++ rest) = some (Json.num n, rest) := by
  by_cases hn : n < 0
  · rw [intToChars, if_pos hn, List.cons_append]
    obtain ⟨d, ds, hds⟩ := List.exists_cons_of_ne_nil (natToChars_ne_nil n.natAbs)
    have hall := natToChars_digits n.natAbs
    rw [hds] at hall
    rw [hds, parseNumber_neg_digits d ds hall (natToChars_lz hds) rest hb, ← hds,
      digitsToNat_natToChars]
    have harg : -((n.natAbs : Nat) : Int) = n := by omega
    rw [harg]
  · rw [intToChars, if_neg hn]
    have harg : ((n.toNat : Nat) : Int) = n := by omega
    rw [parseNumber_natToChars n.toNat rest hb, harg]

/-! ### Round trip of `generate` and the parser -/

theorem isWsChar_false_of_ge {c : Char} (h : 33 ≤ c.toNat) : isWsChar c = false := by
  simp only [isWsChar, Bool.or_eq_false_iff, decide_eq_false_iff_not]
  refine ⟨⟨⟨?_, ?_⟩, ?_⟩, ?_⟩ <;>
    exact char_ne_of_toNat_ne (by
      first
      | rw [show Char.toNat ' ' = 32 from rfl]
      | rw [show Char.toNat '\t' = 9 from rfl]
      | rw [show Char.toNat '\n' = 10 from rfl]
      | rw [show Char.toNat '\r' = 13 from rfl]
      omega)

theorem intToChars_head (n : Int) :
    ∃ c cs, intToChars n = c :: cs ∧ (c = '-' ∨ isDigitChar c = true) := by
  by_cases hn : n < 0
  · exact ⟨'-', natToChars n.natAbs, by rw [intToChars, if_pos hn], Or.inl rfl⟩
  · obtain ⟨d, ds, hds⟩ := List.exists_cons_of_ne_nil (natToChars_ne_nil n.toNat)
    refine ⟨d, ds, by rw [intToChars, if_neg hn, hds], Or.inr ?_⟩
    have hall := natToChars_digits n.toNat
    rw [hds] at hall
    simp [List.all_cons] at hall
    exact hall.1

theorem numStart_spec {c : Char} (h : c = '-' ∨ isDigitChar c = true) :
    c ≠ 'n' ∧ c ≠ 't' ∧ c ≠ 'f' ∧ c ≠ '"' ∧ c ≠ '[' ∧ c ≠ '{' ∧
      isWsChar c = false ∧ c ≠ ']' := by
  have hv : c.toNat = 45 ∨ (48 ≤ c.toNat ∧ c.toNat ≤ 57) := by
    rcases h with h | h
    · left; rw [h]; rfl
    · right; exact isDigitChar_toNat h
  refine ⟨?_, ?_, ?_, ?_, ?_, ?_, isWsChar_false_of_ge (by omega), ?_⟩ <;>
    exact char_ne_of_toNat_ne (by
      first
      | rw [show Char.toNat 'n' = 110 from rfl]
      | rw [show Char.toNat 't' = 116 from rfl]
      | rw [show Char.toNat 'f' = 102 from rfl]
      | rw [show Char.toNat '"' = 34 from rfl]
      | rw [show Char.toNat '[' = 91 from rfl]
      | rw [show Char.toNat '{' = 123 from rfl]
      | rw [show Char.toNat ']' = 93 from rfl]
      omega)

theorem jsonSafe_numF {l : Str} (h : jsonSafe (Json.numF l) = true) : False := by
  simp [jsonSafe] at h

theorem jsonSafeList_cons {v : Json} {vs : List Json}
    (h : jsonSafeList (v :: vs) = true) :
    jsonSafe v = true ∧ jsonSafeList vs = true := by
  simp [jsonSafeList] at h
  exact h

theorem jsonSafeMembers_cons {k : Str} {w : Json} {ms : List (Str × Json)}
    (h : jsonSafeMembers ((k, w) :: ms) = true) :
    safeStr k = true ∧ jsonSafe w = true ∧ jsonSafeMembers ms = true := by
  simp [jsonSafeMembers] at h
  exact ⟨h.1.1, h.1.2, h.2⟩

theorem generate_head_spec (j : Json) (hs : jsonSafe j = true) :
    ∃ c cs, generate j = c :: cs ∧ isWsChar c = false ∧ c ≠ ']' := by
  cases j with
  | null => exact ⟨'n', _, rfl, by decide, by decide⟩
  | bool b =>
    cases b with
    | true => exact ⟨'t', _, rfl, by decide, by decide⟩
    | false => exact ⟨'f', _, rfl, by decide, by decide⟩
  | num n =>
    obtain ⟨c, cs, hc1, hc2⟩ := intToChars_head n
    obtain ⟨_, _, _, _, _, _, hws, hne⟩ := numStart_spec hc2
    exact ⟨c, cs, hc1, hws, hne⟩
  | numF l => exact absurd hs (by simp [jsonSafe])
  | str s => exact ⟨'"', _, rfl, by decide, by decide⟩
  | arr l =>
    cases l with
    | nil => exact ⟨'[', _, rfl, by decide, by decide⟩
    | cons v vs => exact ⟨'[', _, rfl, by decide, by decide⟩
  | obj l =>
    cases l with
    | nil => exact ⟨'{', _, rfl, by decide, by decide⟩
    | cons m ms => exact ⟨'{', _, rfl, by decide, by decide⟩

theorem jcost_pos (j : Json) : 1 ≤ jcost j := by
  cases j <;> simp [jcost]

theorem elemsCost_pos {l : List Json} (h : l ≠ []) : 1 ≤ elemsCost l := by
  cases l with
  | nil => exact absurd rfl h
  | cons v vs => simp [elemsCost]; omega

theorem memsCost_pos {l : List (Str × Json)} (h : l ≠ []) : 1 ≤ memsCost l := by
  cases l with
  | nil => exact absurd rfl h
  | cons m ms => obtain ⟨k, w⟩ := m; simp [memsCost]; omega

theorem numBoundary_cons {c : Char} (rest : Str)
    (h : (isDigitChar c || c == '.' || c == 'e' || c == 'E') = false) :
    numBoundary (c :: rest) = true := by
  simp only [numBoundary, List.head?_cons, h, Bool.not_false]

theorem skipWs_eq_of_head {l : Str} {c : Char} (h : l.head? = some c)
    (hc : isWsChar c = false) : skipWs l = l := by
  cases l with
  | nil => rfl
  | cons x xs =>
    have hx : x = c := by simpa using h
    subst hx
    exact skipWs_cons_of_not_ws hc xs

theorem genElems_head {v : Json} (vs : List Json) (hs : jsonSafe v = true) :
    ∃ c t, genElems (v :: vs) = c :: t ∧ isWsChar c = false ∧ c ≠ ']' := by
  obtain ⟨c, cs, hg, hws, hne⟩ := generate_head_spec v hs
  cases vs with
  | nil => exact ⟨c, cs, by simp [genElems, hg], hws, hne⟩
  | cons w ws =>
    exact ⟨c, cs ++ ',' :: genElems (w :: ws), by simp [genElems, hg], hws, hne⟩

theorem genMembers_head (k : Str) (w : Json) (ms : List (Str × Json)) :
    ∃ t, genMembers ((k, w) :: ms) = '"' :: t := by
  cases ms with
  | nil => exact ⟨escapeStr k ++ ['"'] ++ ':' :: generate w, by simp [genMembers, genStr]⟩
  | cons m2 ms2 =>
    exact ⟨escapeStr k ++ ['"'] ++ ':' :: generate w ++ ',' :: genMembers (m2 :: ms2),
      by simp [genMembers, genStr]⟩

theorem parse_gen_aux (fuel : Nat) :
    (∀ j rest, jsonSafe j = true → jcost j ≤ fuel → numBoundary rest = true →
        parseVal fuel (generate j ++ rest) = some (j, rest)) ∧
    (∀ l rest, l ≠ [] → jsonSafeList l = true → elemsCost l ≤ fuel →
        parseElems fuel (genElems l ++ ']' :: rest) = some (l, rest)) ∧
    (∀ l rest, l ≠ [] → jsonSafeMembers l = true → memsCost l ≤ fuel →
        parseMembers fuel (genMembers l ++ '}' :: rest) = some (l, rest)) := by
  induction fuel with
  | zero =>
    refine ⟨?_, ?_, ?_⟩
    · intro j rest hs hc hb
      exact absurd hc (by have := jcost_pos j; omega)
    · intro l rest hl hs hc
      exact absurd hc (by have := elemsCost_pos hl; omega)
    · intro l rest hl hs hc
      exact absurd hc (by have := memsCost_pos hl; omega)
  | succ fuel ih =>
    obtain ⟨ihP, ihQ, ihR⟩ := ih
    refine ⟨?_, ?_, ?_⟩
    · intro j rest hs hc hb
      cases j with
      | null =>
        rw [show (generate Json.null ++ rest : Str) = 'n' :: 'u' :: 'l' :: 'l' :: rest from rfl,
          parseVal, skipWs_cons_of_not_ws (by decide)]
        simp +decide [List.isPrefixOf]
      | bool b =>
        cases b with
        | true =>
          rw [show (generate (Json.bool true) ++ rest : Str) =
              't' :: 'r' :: 'u' :: 'e' :: rest from rfl,
            parseVal, skipWs_cons_of_not_ws (by decide)]
          simp +decide [List.isPrefixOf]
        | false =>
          rw [show (generate (Json.bool false) ++ rest : Str) =
              'f' :: 'a' :: 'l' :: 's' :: 'e' :: rest from rfl,
            parseVal, skipWs_cons_of_not_ws (by decide)]
          simp +decide [List.isPrefixOf]
      | num n =>
        obtain ⟨c, cs, hc1, hc2⟩ := intToChars_head n
        obtain ⟨n1, n2, n3, n4, n5, n6, hws, _⟩ := numStart_spec hc2
        rw [show generate (Json.num n) = intToChars n from rfl, hc1, List.cons_append,
          parseVal, skipWs_cons_of_not_ws hws]
        simp only [eq_false n1, eq_false n2, eq_false n3, eq_false n4, eq_false n5,
          eq_false n6, if_false]
        rw [← List.cons_append, ← hc1, parseNumber_intToChars n rest hb]
      | numF l => exact absurd hs (by simp [jsonSafe])
      | str s =>
        have hss : safeStr s = true := by simpa [jsonSafe] using hs
        rw [show generate (Json.str s) = '"' :: (escapeStr s ++ ['"']) from rfl,
          escapeStr_safe hss, List.cons_append, parseVal,
          skipWs_cons_of_not_ws (by decide)]
        rw [List.append_assoc, List.singleton_append]
        simp +decide [parseStrBody_safe s hss rest]
      | arr l =>
        cases l with
        | nil =>
          rw [show (generate (Json.arr []) ++ rest : Str) = '[' :: ']' :: rest from rfl,
            parseVal, skipWs_cons_of_not_ws (by decide)]
          have hsw : skipWs (']' :: rest) = ']' :: rest := skipWs_cons_of_not_ws (by decide) rest
          simp +decide [hsw]
        | cons v vs =>
          have hsafe : jsonSafe v = true ∧ jsonSafeList vs = true :=
            jsonSafeList_cons (by simpa [jsonSafe] using hs)
          have hcost : elemsCost (v :: vs) ≤ fuel := by
            have hj : jcost (Json.arr (v :: vs)) = 1 + elemsCost (v :: vs) := by simp [jcost]
            omega
          obtain ⟨c, t, hgl, hws, hne⟩ := genElems_head vs hsafe.1
          have hq := ihQ (v :: vs) rest (by simp) (by simpa [jsonSafe] using hs) hcost
          rw [hgl] at hq
          simp only [List.cons_append] at hq
          rw [show generate (Json.arr (v :: vs)) =
              '[' :: (genElems (v :: vs) ++ [']']) from rfl,
            List.cons_append, parseVal, skipWs_cons_of_not_ws (by decide)]
          rw [List.append_assoc, List.singleton_append, hgl]
          simp +decide [skipWs_cons_of_not_ws hws, hne, hq]
      | obj l =>
        cases l with
        | nil =>
          rw [show (generate (Json.obj []) ++ rest : Str) = '{' :: '}' :: rest from rfl,
            parseVal, skipWs_cons_of_not_ws (by decide)]
          have hsw : skipWs ('}' :: rest) = '}' :: rest := skipWs_cons_of_not_ws (by decide) rest
          simp +decide [hsw]
        | cons m ms =>
          obtain ⟨k, w⟩ := m
          have hsafe := jsonSafeMembers_cons (show jsonSafeMembers ((k, w) :: ms) = true by
            simpa [jsonSafe] using hs)
          have hcost : memsCost ((k, w) :: ms) ≤ fuel := by
            have hj : jcost (Json.obj ((k, w) :: ms)) = 1 + memsCost ((k, w) :: ms) := by
              simp [jcost]
            omega
          have hr := ihR ((k, w) :: ms) rest (by simp) (by simpa [jsonSafe] using hs) hcost
          obtain ⟨t, hgm⟩ := genMembers_head k w ms
          rw [hgm] at hr
          simp only [List.cons_append] at hr
          rw [show generate (Json.obj ((k, w) :: ms)) =
              '{' :: (genMembers ((k, w) :: ms) ++ ['}']) from rfl,
            List.cons_append, parseVal, skipWs_cons_of_not_ws (by decide)]
          rw [List.append_assoc, List.singleton_append, hgm]
          simp +decide [skipWs_cons_of_not_ws (show isWsChar '"' = false by decide), hr]
    · intro l rest hl hs hc
      cases l with
      | nil => exact absurd rfl hl
      | cons v vs =>
        have hsafe := jsonSafeList_cons hs
        have hcost : 1 + jcost v + elemsCost vs ≤ fuel + 1 := by
          have he : elemsCost (v :: vs) = 1 + jcost v + elemsCost vs := by simp [elemsCost]
          omega
        cases vs with
        | nil =>
          have hp := ihP v (']' :: rest) hsafe.1 (by omega) (numBoundary_cons rest (by decide))
          have hsw : skipWs (']' :: rest) = ']' :: rest := skipWs_cons_of_not_ws (by decide) rest
          rw [show genElems [v] = generate v from rfl, parseElems, hp]
          simp +decide [hsw]
        | cons w ws =>
          have hp := ihP v (',' :: (genElems (w :: ws) ++ ']' :: rest)) hsafe.1
            (by omega) (numBoundary_cons _ (by decide))
          have hq := ihQ (w :: ws) rest (by simp) hsafe.2 (by
            have hj := jcost_pos v
            have he : elemsCost (w :: ws) ≤ fuel := by
              have h2 := elemsCost_pos (show (w :: ws : List Json) ≠ [] by simp)
              omega
            exact he)
          have hsw : skipWs (',' :: (genElems (w :: ws) ++ ']' :: rest)) =
              ',' :: (genElems (w :: ws) ++ ']' :: rest) :=
            skipWs_cons_of_not_ws (by decide) _
          rw [show genElems (v :: w :: ws) = generate v ++ ',' :: genElems (w :: ws) from rfl,
            List.append_assoc, List.cons_append, parseElems, hp]
          simp +decide [hsw, hq]
    · intro l rest hl hs hc
      cases l with
      | nil => exact absurd rfl hl
      | cons m ms =>
        obtain ⟨k, w⟩ := m
        have hsafe := jsonSafeMembers_cons hs
        have hcost : 1 + jcost w + memsCost ms ≤ fuel + 1 := by
          have he : memsCost ((k, w) :: ms) = 1 + jcost w + memsCost ms := by simp [memsCost]
          omega
        cases ms with
        | nil =>
          have hp := ihP w ('}' :: rest) hsafe.2.1 (by omega)
            (numBoundary_cons rest (by decide))
          have hsw : skipWs ('}' :: rest) = '}' :: rest := skipWs_cons_of_not_ws (by decide) rest
          have hsb := parseStrBody_safe k hsafe.1 (':' :: (generate w ++ '}' :: rest))
          have hswc : skipWs (':' :: (generate w ++ '}' :: rest)) =
              ':' :: (generate w ++ '}' :: rest) := skipWs_cons_of_not_ws (by decide) _
          rw [show genMembers [(k, w)] = genStr k ++ ':' :: generate w from rfl]
          rw [show genStr k = '"' :: (escapeStr k ++ ['"']) from rfl, escapeStr_safe hsafe.1]
          rw [parseMembers]
          rw [show (('"' :: (k ++ ['"']) ++ ':' :: generate w) ++ '}' :: rest : Str) =
            '"' :: (k ++ '"' :: (':' :: (generate w ++ '}' :: rest))) by simp]
          rw [skipWs_cons_of_not_ws (by decide)]
          simp +decide [hsb, hswc, hp, hsw]
        | cons m2 ms2 =>
          obtain ⟨k2, w2⟩ := m2
          have hp := ihP w (',' :: (genMembers ((k2, w2) :: ms2) ++ '}' :: rest)) hsafe.2.1
            (by omega) (numBoundary_cons _ (by decide))
          have hr := ihR ((k2, w2) :: ms2) rest (by simp) hsafe.2.2 (by
            have hj := jcost_pos w
            omega)
          have hsb := parseStrBody_safe k hsafe.1
            (':' :: (generate w ++ ',' :: (genMembers ((k2, w2) :: ms2) ++ '}' :: rest)))
          have hswc : skipWs (':' :: (generate w ++ ',' ::
              (genMembers ((k2, w2) :: ms2) ++ '}' :: rest))) =
              ':' :: (generate w ++ ',' :: (genMembers ((k2, w2) :: ms2) ++ '}' :: rest)) :=
            skipWs_cons_of_not_ws (by decide) _
          have hswm : skipWs (',' :: (genMembers ((k2, w2) :: ms2) ++ '}' :: rest)) =
              ',' :: (genMembers ((k2, w2) :: ms2) ++ '}' :: rest) :=
            skipWs_cons_of_not_ws (by decide) _
          rw [show genMembers ((k, w) :: (k2, w2) :: ms2) =
            (genStr k ++ ':' :: generate w) ++ ',' :: genMembers ((k2, w2) :: ms2) from rfl]
          rw [show genStr k = '"' :: (escapeStr k ++ ['"']) from rfl, escapeStr_safe hsafe.1]
          rw [parseMembers]
          rw [show ((('"' :: (k ++ ['"']) ++ ':' :: generate w) ++
              ',' :: genMembers ((k2, w2) :: ms2)) ++ '}' :: rest : Str) =
            '"' :: (k ++ '"' :: (':' :: (generate w ++
              ',' :: (genMembers ((k2, w2) :: ms2) ++ '}' :: rest)))) by simp]
          rw [skipWs_cons_of_not_ws (by decide)]
          simp +decide [hsb, hswc, hp, hswm, hr]

theorem generate_length_pos (j : Json) (hs : jsonSafe j = true) :
    1 ≤ (generate j).length := by
  cases j with
  | null => decide
  | bool b => cases b <;> decide
  | num n =>
    obtain ⟨c, cs, hc1, _⟩ := intToChars_head n
    rw [show generate (Json.num n) = intToChars n from rfl, hc1]
    simp
  | numF l => exact absurd hs (by simp [jsonSafe])
  | str s => simp [generate, genStr]
  | arr l => cases l <;> simp [generate]
  | obj l => cases l <;> simp [generate]

theorem cost_le_length_aux (bound : Nat) :
    (∀ j, jcost j ≤ bound → jsonSafe j = true → jcost j ≤ (generate j).length) ∧
    (∀ l, elemsCost l ≤ bound → jsonSafeList l = true →
      elemsCost l ≤ (genElems l).length + 1) ∧
    (∀ l, memsCost l ≤ bound → jsonSafeMembers l = true →
      memsCost l ≤ (genMembers l).length + 1) := by
  induction bound with
  | zero =>
    refine ⟨?_, ?_, ?_⟩
    · intro j hb hs
      exact absurd hb (by have := jcost_pos j; omega)
    · intro l hb hs
      cases l with
      | nil => simp [elemsCost]
      | cons v vs => exact absurd hb (by have := elemsCost_pos (show (v :: vs : List Json) ≠ [] by simp); omega)
    · intro l hb hs
      cases l with
      | nil => simp [memsCost]
      | cons m ms =>
        exact absurd hb (by have := memsCost_pos (show (m :: ms : List (Str × Json)) ≠ [] by simp); omega)
  | succ bound ih =>
    obtain ⟨ihJ, ihE, ihM⟩ := ih
    refine ⟨?_, ?_, ?_⟩
    · intro j hb hs
      cases j with
      | null => decide
      | bool b => cases b <;> decide
      | num n => exact le_trans (by simp [jcost]) (generate_length_pos (Json.num n) hs)
      | numF l => exact absurd hs (by simp [jsonSafe])
      | str s => simp [jcost, generate, genStr]
      | arr l =>
        cases l with
        | nil => decide
        | cons v vs =>
          have hc : jcost (Json.arr (v :: vs)) = 1 + elemsCost (v :: vs) := by simp [jcost]
          have he := ihE (v :: vs) (by omega) (by simpa [jsonSafe] using hs)
          have hlen : (generate (Json.arr (v :: vs))).length =
              (genElems (v :: vs)).length + 2 := by
            rw [show generate (Json.arr (v :: vs)) =
              '[' :: (genElems (v :: vs) ++ [']']) from rfl]
            simp
          omega
      | obj l =>
        cases l with
        | nil => decide
        | cons m ms =>
          obtain ⟨k, w⟩ := m
          have hc : jcost (Json.obj ((k, w) :: ms)) = 1 + memsCost ((k, w) :: ms) := by
            simp [jcost]
          have he := ihM ((k, w) :: ms) (by omega) (by simpa [jsonSafe] using hs)
          have hlen : (generate (Json.obj ((k, w) :: ms))).length =
              (genMembers ((k, w) :: ms)).length + 2 := by
            rw [show generate (Json.obj ((k, w) :: ms)) =
              '{' :: (genMembers ((k, w) :: ms) ++ ['}']) from rfl]
            simp
          omega
    · intro l hb hs
      cases l with
      | nil => simp [elemsCost]
      | cons v vs =>
        have hsafe := jsonSafeList_cons hs
        have hc : elemsCost (v :: vs) = 1 + jcost v + elemsCost vs := by simp [elemsCost]
        have hj := ihJ v (by have := jcost_pos v; omega) hsafe.1
        cases vs with
        | nil =>
          have hg : genElems [v] = generate v := rfl
          simp only [hc, hg]
          have : elemsCost ([] : List Json) = 0 := by simp [elemsCost]
          omega
        | cons w ws =>
          have he := ihE (w :: ws)
            (by have := jcost_pos v; have := elemsCost_pos (show (w :: ws : List Json) ≠ [] by simp); omega)
            hsafe.2
          have hg : genElems (v :: w :: ws) = generate v ++ ',' :: genElems (w :: ws) := rfl
          rw [hc, hg]
          simp only [List.length_append, List.length_cons]
          omega
    · intro l hb hs
      cases l with
      | nil => simp [memsCost]
      | cons m ms =>
        obtain ⟨k, w⟩ := m
        have hsafe := jsonSafeMembers_cons hs
        have hc : memsCost ((k, w) :: ms) = 1 + jcost w + memsCost ms := by simp [memsCost]
        have hj := ihJ w (by have := jcost_pos w; omega) hsafe.2.1
        have hgk : 1 ≤ (genStr k).length := by simp [genStr]
        cases ms with
        | nil =>
          have hg : genMembers [(k, w)] = genStr k ++ ':' :: generate w := rfl
          rw [hc, hg]
          simp only [List.length_append, List.length_cons]
          have h0 : memsCost ([] : List (Str × Json)) = 0 := by simp [memsCost]
          omega
        | cons m2 ms2 =>
          have he := ihM (m2 :: ms2)
            (by have := jcost_pos w; have := memsCost_pos (show (m2 :: ms2 : List (Str × Json)) ≠ [] by simp); omega)
            hsafe.2.2
          have hg : genMembers ((k, w) :: m2 :: ms2) =
              (genStr k ++ ':' :: generate w) ++ ',' :: genMembers (m2 :: ms2) := rfl
          rw [hc, hg]
          simp only [List.length_append, List.length_cons]
          omega

/-- Round trip: parsing the compact rendering of any safe JSON value yields
the value back.  This is the wire-level guarantee connecting the Ruby
client's `JSON.generate` to the host's `JSON.parse`. -/
theorem jsonParse_generate {j : Json} (hs : jsonSafe j = true) :
    jsonParse (generate j) = some j := by
  have hcost : jcost j ≤ (generate j).length :=
    (cost_le_length_aux (jcost j)).1 j (le_refl _) hs
  have hp := (parse_gen_aux ((generate j).length + 1)).1 j [] hs (by omega) (by rfl)
  rw [jsonParse]
  rw [List.append_nil] at hp
  rw [hp]
  rfl

/-! ### Stream processing lemmas -/

theorem isPrefixOf_append_self (l r : Str) : l.isPrefixOf (l ++ r) = true := by
  induction l with
  | nil => simp [List.isPrefixOf]
  | cons c cs ih => simp [List.isPrefixOf, ih]

theorem processEventLine_decode_none {line : Str} (h : decodeEventLine line = none)
    (st : List Str) (ch : List Json) :
    processEventLine line st ch = (st ++ [line], ch) := by
  rw [processEventLine]
  by_cases hp : eventMarker.isPrefixOf line
  · rw [if_pos hp]
    rw [decodeEventLine, if_pos hp] at h
    rw [h]
  · rw [if_neg hp]

theorem processEventLine_decode_some {line : Str} {e : Json}
    (h : decodeEventLine line = some e) (st : List Str) (ch : List Json) :
    processEventLine line st ch = (st, ch ++ [e]) := by
  rw [processEventLine]
  by_cases hp : eventMarker.isPrefixOf line
  · rw [if_pos hp]
    rw [decodeEventLine, if_pos hp] at h
    rw [h]
  · rw [decodeEventLine, if_neg hp] at h
    cases h

theorem processLines_go (lines : List Str) : ∀ (st : List Str) (ch : List Json),
    lines.foldl (fun acc line => processEventLine line acc.1 acc.2) (st, ch) =
      (st ++ lines.filter (fun l => (decodeEventLine l).isNone),
       ch ++ lines.filterMap decodeEventLine) := by
  induction lines with
  | nil => intro st ch; simp
  | cons l ls ih =>
    intro st ch
    simp only [List.foldl_cons]
    cases hd : decodeEventLine l with
    | none =>
      rw [processEventLine_decode_none hd]
      rw [ih]
      simp [List.filter_cons, List.filterMap_cons, hd]
    | some e =>
      rw [processEventLine_decode_some hd]
      rw [ih]
      simp [List.filter_cons, List.filterMap_cons, hd]

/-- The final accumulation: plain-output lines are exactly the lines that do
not decode to an event (in stream order), and the chain holds the decoded
events in arrival order. -/
theorem processLines_eq (lines : List Str) :
    processLines lines =
      (lines.filter (fun l => (decodeEventLine l).isNone),
       lines.filterMap decodeEventLine) := by
  rw [processLines, processLines_go]
  simp

theorem taggedTraceFrom_lower (env : HostOp → Bool) (w : Bool) :
    ∀ (es : List Json) (i : Nat) (p : Nat × TraceEntry),
      p ∈ taggedTraceFrom env w i es → i ≤ p.1 := by
  intro es
  induction es with
  | nil => intro i p hp; simp [taggedTraceFrom] at hp
  | cons e es ih =>
    intro i p hp
    simp only [taggedTraceFrom, List.mem_append, List.mem_map] at hp
    rcases hp with ⟨t, _, rfl⟩ | hp
    · exact le_refl i
    · have := ih (i + 1) p hp
      omega

theorem pairwise_const_tag (i : Nat) (l : List TraceEntry) :
    List.Pairwise (fun a b : Nat × TraceEntry => a.1 ≤ b.1)
      (l.map (fun t => (i, t))) := by
  induction l with
  | nil => simp
  | cons t ts ih =>
    simp only [List.map_cons, List.pairwise_cons]
    refine ⟨?_, ih⟩
    intro p hp
    simp only [List.mem_map] at hp
    obtain ⟨x, _, rfl⟩ := hp
    exact le_refl i

theorem taggedTraceFrom_sorted (env : HostOp → Bool) (w : Bool) :
    ∀ (es : List Json) (i : Nat),
      List.Pairwise (fun a b : Nat × TraceEntry => a.1 ≤ b.1)
        (taggedTraceFrom env w i es) := by
  intro es
  induction es with
  | nil => intro i; simp [taggedTraceFrom]
  | cons e es ih =>
    intro i
    rw [taggedTraceFrom, List.pairwise_append]
    refine ⟨pairwise_const_tag i _, ih (i + 1), ?_⟩
    intro x hx y hy
    simp only [List.mem_map] at hx
    obtain ⟨t, _, rfl⟩ := hx
    have := taggedTraceFrom_lower env w es (i + 1) y hy
    omega

/-! ### JavaScript object construction lemmas -/

theorem jsObjProps_go {fields : List (Str × Json)} : ∀ acc : List (Str × Json),
    ((acc ++ fields).map Prod.fst).Nodup →
    fields.foldl objInsert acc = acc ++ fields := by
  induction fields with
  | nil => intro acc _; simp
  | cons kv fields ih =>
    intro acc hnd
    obtain ⟨k, v⟩ := kv
    have hnotin : ¬(acc.any (fun p => p.1 == (k, v).1) = true) := by
      simp only [List.any_eq_true, beq_iff_eq]
      rintro ⟨p, hp, hpk⟩
      have hmem : p.1 ∈ acc.map Prod.fst := List.mem_map_of_mem Prod.fst hp
      have hnd2 := hnd
      rw [List.map_append, List.nodup_append] at hnd2
      refine hnd2.2.2 hmem ?_
      rw [hpk]
      exact List.mem_map_of_mem Prod.fst (List.mem_cons_self _ _)
    have hstep : objInsert acc (k, v) = acc ++ [(k, v)] := by
      rw [objInsert, if_neg hnotin]
    rw [List.foldl_cons, hstep, ih]
    · simp
    · simpa using hnd

theorem jsObjProps_nodup {fields : List (Str × Json)}
    (h : (fields.map Prod.fst).Nodup) : jsObjProps fields = fields := by
  have := @jsObjProps_go fields [] (by simpa using h)
  simpa [jsObjProps] using this

/-! ### Dispatcher helper lemmas -/

theorem typeTagOf_obj {fields : List (Str × Json)} {tag : Str}
    (h : jsGet fields typeKey = some (Json.str tag)) :
    typeTagOf (Json.obj fields) = some tag := by
  simp [typeTagOf, h]

theorem jsonSafeMembers_of_forall {l : List (Str × Json)}
    (h : ∀ p ∈ l, safeStr p.1 = true ∧ jsonSafe p.2 = true) :
    jsonSafeMembers l = true := by
  induction l with
  | nil => simp [jsonSafeMembers]
  | cons p ps ih =>
    obtain ⟨k, v⟩ := p
    have hp := h (k, v) (List.mem_cons_self _ _)
    simp [jsonSafeMembers, hp.1, hp.2]
    exact ih (fun q hq => h q (List.mem_cons_of_mem _ hq))

/-! ### Claims -/

/-- Claim C1: every `wait.for` or `wait.until` event is acknowledged exactly
once, the acknowledgment comes only after the handler has settled (it is the
last trace action, following the single wait-operation invocation), and it is
sent whether the handler resolved or threw. -/
theorem c1_wait_event_acked_once (env : HostOp → Bool) (e : Json)
    (htag : typeTagOf e = some waitForTag ∨ typeTagOf e = some waitUntilTag) :
    countAck (runChained env true e) = 1 ∧
    (runChained env true e).getLast? = some TraceEntry.ack ∧
    ∃ op, isWaitOp op = true ∧
      (runChained env true e).head? = some (TraceEntry.invoke op) := by
  cases e with
  | null => rcases htag with h | h <;> simp [typeTagOf] at h
  | bool b => rcases htag with h | h <;> simp [typeTagOf] at h
  | num n => rcases htag with h | h <;> simp [typeTagOf] at h
  | numF l => rcases htag with h | h <;> simp [typeTagOf] at h
  | str s => rcases htag with h | h <;> simp [typeTagOf] at h
  | arr l => rcases htag with h | h <;> simp [typeTagOf] at h
  | obj fields =>
    cases hjs : jsGet fields typeKey with
    | none => rcases htag with h | h <;> simp [typeTagOf, hjs] at h
    | some j =>
      cases j with
      | str tag =>
        have htag2 : tag = waitForTag ∨ tag = waitUntilTag := by
          rcases htag with h | h
          · left; have := typeTagOf_obj hjs; rw [this] at h; exact Option.some.inj h
          · right; have := typeTagOf_obj hjs; rw [this] at h; exact Option.some.inj h
        rcases htag2 with rfl | rfl
        · have hh : handleTriggerEvent env (Json.obj fields) =
              opRun env (HostOp.waitFor (jsRest fields [typeKey])) true := by
            simp only [handleTriggerEvent, hjs]
            simp +decide
          cases henv : env (HostOp.waitFor (jsRest fields [typeKey])) with
          | false =>
            have ht : runChained env true (Json.obj fields) =
                [TraceEntry.invoke (HostOp.waitFor (jsRest fields [typeKey])),
                  TraceEntry.logError, TraceEntry.ack] := by
              simp [runChained, hh, opRun, henv, ackWrites]
            rw [ht]
            exact ⟨rfl, rfl, HostOp.waitFor (jsRest fields [typeKey]), rfl, rfl⟩
          | true =>
            have ht : runChained env true (Json.obj fields) =
                [TraceEntry.invoke (HostOp.waitFor (jsRest fields [typeKey])),
                  TraceEntry.ack] := by
              simp [runChained, hh, opRun, henv, ackWrites]
            rw [ht]
            exact ⟨rfl, rfl, HostOp.waitFor (jsRest fields [typeKey]), rfl, rfl⟩
        · have hh : handleTriggerEvent env (Json.obj fields) =
              opRun env (HostOp.waitUntil (jsGet fields dateKey)) true := by
            simp only [handleTriggerEvent, hjs]
            simp +decide
          cases henv : env (HostOp.waitUntil (jsGet fields dateKey)) with
          | false =>
            have ht : runChained env true (Json.obj fields) =
                [TraceEntry.invoke (HostOp.waitUntil (jsGet fields dateKey)),
                  TraceEntry.logError, TraceEntry.ack] := by
              simp [runChained, hh, opRun, henv, ackWrites]
            rw [ht]
            exact ⟨rfl, rfl, HostOp.waitUntil (jsGet fields dateKey), rfl, rfl⟩
          | true =>
            have ht : runChained env true (Json.obj fields) =
                [TraceEntry.invoke (HostOp.waitUntil (jsGet fields dateKey)),
                  TraceEntry.ack] := by
              simp [runChained, hh, opRun, henv, ackWrites]
            rw [ht]
            exact ⟨rfl, rfl, HostOp.waitUntil (jsGet fields dateKey), rfl, rfl⟩
      | null => rcases htag with h | h <;> simp [typeTagOf, hjs] at h
      | bool b => rcases htag with h | h <;> simp [typeTagOf, hjs] at h
      | num n => rcases htag with h | h <;> simp [typeTagOf, hjs] at h
      | numF l => rcases htag with h | h <;> simp [typeTagOf, hjs] at h
      | arr l => rcases htag with h | h <;> simp [typeTagOf, hjs] at h
      | obj l => rcases htag with h | h <;> simp [typeTagOf, hjs] at h

/-- Witness for C1 at a concrete throwing `wait.for` event. -/
theorem c1_witness :
    countAck (runChained (fun _ => false) true
      (Json.obj [(typeKey, Json.str waitForTag), ("seconds".data, Json.num 5)])) = 1 ∧
    (runChained (fun _ => false) true
      (Json.obj [(typeKey, Json.str waitForTag), ("seconds".data, Json.num 5)])).getLast? =
      some TraceEntry.ack ∧
    ∃ op, isWaitOp op = true ∧
      (runChained (fun _ => false) true
        (Json.obj [(typeKey, Json.str waitForTag), ("seconds".data, Json.num 5)])).head? =
        some (TraceEntry.invoke op) :=
  c1_wait_event_acked_once (fun _ => false)
    (Json.obj [(typeKey, Json.str waitForTag), ("seconds".data, Json.num 5)])
    (Or.inl (by rfl))

/-- Claim C2 is false on the code: when the heartbeat handler throws, the
catch-all error path still writes the acknowledgment sentinel ("Always send
ACK to unblock the Ruby process"), so a heartbeat event can trigger an
acknowledgment write. -/
theorem c2_counterexample :
    countAck (runChained (fun _ => false) true
      (Json.obj [(typeKey, Json.str heartbeatTag)])) = 1 := by rfl

/-- Claim C2 (amended): a `heartbeat`, `log`, `metadata.set`, or
`metadata.append` event never triggers an acknowledgment write as long as its
host operation completes without throwing; only the failure path writes the
unconditional unblocking acknowledgment. -/
theorem c2_no_ack_on_success (env : HostOp → Bool) (w : Bool) (e : Json)
    (htag : typeTagOf e = some heartbeatTag ∨ typeTagOf e = some logTag ∨
      typeTagOf e = some metadataSetTag ∨ typeTagOf e = some metadataAppendTag)
    (hok : ∀ op, env op = true) :
    countAck (runChained env w e) = 0 := by
  cases e with
  | null => rcases htag with h | h | h | h <;> simp [typeTagOf] at h
  | bool b => rcases htag with h | h | h | h <;> simp [typeTagOf] at h
  | num n => rcases htag with h | h | h | h <;> simp [typeTagOf] at h
  | numF l => rcases htag with h | h | h | h <;> simp [typeTagOf] at h
  | str s => rcases htag with h | h | h | h <;> simp [typeTagOf] at h
  | arr l => rcases htag with h | h | h | h <;> simp [typeTagOf] at h
  | obj fields =>
    cases hjs : jsGet fields typeKey with
    | none => rcases htag with h | h | h | h <;> simp [typeTagOf, hjs] at h
    | some j =>
      cases j with
      | str tag =>
        have htg := typeTagOf_obj hjs
        have htag2 : tag = heartbeatTag ∨ tag = logTag ∨ tag = metadataSetTag ∨
            tag = metadataAppendTag := by
          rcases htag with h | h | h | h <;> rw [htg] at h
          · exact Or.inl (Option.some.inj h)
          · exact Or.inr (Or.inl (Option.some.inj h))
          · exact Or.inr (Or.inr (Or.inl (Option.some.inj h)))
          · exact Or.inr (Or.inr (Or.inr (Option.some.inj h)))
        rcases htag2 with rfl | rfl | rfl | rfl
        · have hh : handleTriggerEvent env (Json.obj fields) =
              opRun env HostOp.heartbeatYield false := by
            simp only [handleTriggerEvent, hjs]
            simp +decide
          simp [runChained, hh, opRun, hok, countAck, isAck]
        · have hh : handleTriggerEvent env (Json.obj fields) =
              opRun env (HostOp.logLog (jsGet fields messageKey)
                (if (jsRest fields [typeKey, messageKey]).isEmpty then none
                 else some (jsRest fields [typeKey, messageKey]))) false := by
            simp only [handleTriggerEvent, hjs]
            simp +decide
          simp [runChained, hh, opRun, hok, countAck, isAck]
        · have hh : handleTriggerEvent env (Json.obj fields) =
              opRun env (HostOp.metadataSet (jsGet fields keyKey)
                (jsGet fields valueKey)) false := by
            simp only [handleTriggerEvent, hjs]
            simp +decide
          simp [runChained, hh, opRun, hok, countAck, isAck]
        · have hh : handleTriggerEvent env (Json.obj fields) =
              opRun env (HostOp.metadataAppend (jsGet fields keyKey)
                (jsGet fields valueKey)) false := by
            simp only [handleTriggerEvent, hjs]
            simp +decide
          simp [runChained, hh, opRun, hok, countAck, isAck]
      | null => rcases htag with h | h | h | h <;> simp [typeTagOf, hjs] at h
      | bool b => rcases htag with h | h | h | h <;> simp [typeTagOf, hjs] at h
      | num n => rcases htag with h | h | h | h <;> simp [typeTagOf, hjs] at h
      | numF l => rcases htag with h | h | h | h <;> simp [typeTagOf, hjs] at h
      | arr l => rcases htag with h | h | h | h <;> simp [typeTagOf, hjs] at h
      | obj l => rcases htag with h | h | h | h <;> simp [typeTagOf, hjs] at h

/-- Witness for the amended C2 at a concrete succeeding heartbeat event. -/
theorem c2_witness :
    countAck (runChained (fun _ => true) true
      (Json.obj [(typeKey, Json.str heartbeatTag)])) = 0 :=
  c2_no_ack_on_success (fun _ => true) true
    (Json.obj [(typeKey, Json.str heartbeatTag)])
    (Or.inl (by rfl)) (fun _ => rfl)

/-- Claim C3: a line carrying the event marker whose remainder is not valid
JSON is appended verbatim to the stdout result, schedules no handler, and the
invocation still resolves normally on exit code 0 with that line in its
stdout. -/
theorem c3_malformed_line_plain (line : Str)
    (h1 : eventMarker.isPrefixOf line = true)
    (h2 : jsonParse (line.drop eventMarker.length) = none) :
    (∀ st ch, processEventLine line st ch = (st ++ [line], ch)) ∧
    (∀ env w lines chunks path,
      (runInvocation env w (lines ++ [line]) chunks (some 0) path).2 =
        Except.ok ⟨List.intercalate newlineStr ((processLines lines).1 ++ [line]),
          chunks.flatten, 0⟩) := by
  have hdec : decodeEventLine line = none := by
    rw [decodeEventLine, if_pos h1, h2]
  refine ⟨fun st ch => processEventLine_decode_none hdec st ch, ?_⟩
  intro env w lines chunks path
  rw [runInvocation]
  have hp1 : (processLines (lines ++ [line])).1 = (processLines lines).1 ++ [line] := by
    rw [processLines_eq, processLines_eq]
    simp [List.filter_append, hdec]
  simp only [hp1]
  rw [handleProcessClose]
  simp [exitCodeOf]

/-- Witness for C3 at the spec's own example line. -/
theorem c3_witness :
    (processEventLine ("__TRIGGER_EVENT__:\x7bnot valid json".data) [] [] =
      ([("__TRIGGER_EVENT__:\x7bnot valid json".data)], [])) ∧
    (runInvocation (fun _ => true) true [("__TRIGGER_EVENT__:\x7bnot valid json".data)]
        [] (some 0) []).2 =
      Except.ok ⟨("__TRIGGER_EVENT__:\x7bnot valid json".data), [], 0⟩ := by
  have h := c3_malformed_line_plain ("__TRIGGER_EVENT__:\x7bnot valid json".data)
    (by rfl) (by rfl)
  refine ⟨h.1 [] [], ?_⟩
  have h2 := h.2 (fun _ => true) true [] [] []
  simpa [processLines, List.intercalate] using h2

/-- Claim C4 is false on the code: a marker line whose remainder is valid
JSON with an unrecognized `type` tag is consumed as an event (dispatched as a
no-op), not reclassified as plain output — the result's stdout does not
receive the line. -/
theorem c4_counterexample :
    (processEventLine ("__TRIGGER_EVENT__:\x7b\"type\":\"bogus\"\x7d".data) [] []).1 = [] ∧
    (processEventLine ("__TRIGGER_EVENT__:\x7b\"type\":\"bogus\"\x7d".data) [] []).2 =
      [Json.obj [("type".data, Json.str "bogus".data)]] ∧
    ¬((processEventLine ("__TRIGGER_EVENT__:\x7b\"type\":\"bogus\"\x7d".data) [] []).1 =
      [("__TRIGGER_EVENT__:\x7b\"type\":\"bogus\"\x7d".data)]) := by
  refine ⟨rfl, rfl, ?_⟩
  intro h
  have h0 : (processEventLine ("__TRIGGER_EVENT__:\x7b\"type\":\"bogus\"\x7d".data)
      [] []).1 = [] := rfl
  rw [h0] at h
  cases h

/-- Claim C4 (amended): a marker line parsing to JSON that fits no known
variant — an unrecognized tag, a missing or non-string tag, or a non-object
value other than `null` — is consumed into the event chain (never appended to
stdout), and its handler is a no-op: no host operation, no acknowledgment, no
error log. -/
theorem c4_unknown_event_noop (line : Str) (st : List Str) (ch : List Json) (j : Json)
    (hdec : decodeEventLine line = some j)
    (hnull : j ≠ Json.null)
    (htag : ∀ t, typeTagOf j = some t → ¬(t ∈ knownTags)) :
    processEventLine line st ch = (st, ch ++ [j]) ∧
    ∀ env w, runChained env w j = [] := by
  refine ⟨processEventLine_decode_some hdec st ch, ?_⟩
  intro env w
  cases j with
  | null => exact absurd rfl hnull
  | bool b => simp [runChained, handleTriggerEvent]
  | num n => simp [runChained, handleTriggerEvent]
  | numF l => simp [runChained, handleTriggerEvent]
  | str s => simp [runChained, handleTriggerEvent]
  | arr l => simp [runChained, handleTriggerEvent]
  | obj fields =>
    cases hjs : jsGet fields typeKey with
    | none => simp [runChained, handleTriggerEvent, hjs]
    | some v =>
      cases v with
      | str t =>
        have ht := htag t (typeTagOf_obj hjs)
        have h1 : ¬(t = heartbeatTag) := fun hh => ht (by rw [hh]; simp [knownTags])
        have h2 : ¬(t = waitForTag) := fun hh => ht (by rw [hh]; simp [knownTags])
        have h3 : ¬(t = waitUntilTag) := fun hh => ht (by rw [hh]; simp [knownTags])
        have h4 : ¬(t = logTag) := fun hh => ht (by rw [hh]; simp [knownTags])
        have h5 : ¬(t = metadataSetTag) := fun hh => ht (by rw [hh]; simp [knownTags])
        have h6 : ¬(t = metadataAppendTag) := fun hh => ht (by rw [hh]; simp [knownTags])
        have hh : handleTriggerEvent env (Json.obj fields) = ⟨[], Except.ok false⟩ := by
          simp only [handleTriggerEvent, hjs]
          rw [if_neg h1, if_neg h2, if_neg h3, if_neg h4, if_neg h5, if_neg h6]
        simp [runChained, hh]
      | null => simp [runChained, handleTriggerEvent, hjs]
      | bool b => simp [runChained, handleTriggerEvent, hjs]
      | num n => simp [runChained, handleTriggerEvent, hjs]
      | numF lx => simp [runChained, handleTriggerEvent, hjs]
      | arr lx => simp [runChained, handleTriggerEvent, hjs]
      | obj lx => simp [runChained, handleTriggerEvent, hjs]

/-- Witness for the amended C4 at the bogus-tag line. -/
theorem c4_witness :
    processEventLine ("__TRIGGER_EVENT__:\x7b\"type\":\"bogus\"\x7d".data) [] [] =
      ([], [Json.obj [("type".data, Json.str "bogus".data)]]) ∧
    ∀ env w, runChained env w (Json.obj [("type".data, Json.str "bogus".data)]) = [] :=
  c4_unknown_event_noop ("__TRIGGER_EVENT__:\x7b\"type\":\"bogus\"\x7d".data) [] []
    (Json.obj [("type".data, Json.str "bogus".data)])
    (by rfl) (by intro h; cases h)
    (by
      intro t ht
      have : t = "bogus".data := by
        have h := ht
        rw [show typeTagOf (Json.obj [("type".data, Json.str "bogus".data)]) =
          some ("bogus".data) from rfl] at h
        exact (Option.some.inj h).symm
      rw [this]
      decide)

/-- Claim C5: the chain built from the stream holds exactly the decoded
events in arrival order, and draining it runs the handlers strictly
serialized — in the index-tagged execution trace, every action of handler N
precedes every action of handler N+1 (tags are monotone), so no two handlers
interleave. -/
theorem c5_handlers_serialized (env : HostOp → Bool) (w : Bool) (lines : List Str) :
    (processLines lines).2 = lines.filterMap decodeEventLine ∧
    List.Pairwise (fun a b : Nat × TraceEntry => a.1 ≤ b.1)
      (chainTraceTagged env w (processLines lines).2) := by
  refine ⟨by rw [processLines_eq], ?_⟩
  exact taggedTraceFrom_sorted env w _ 0

/-- Claim C10: a line that is not a decodable event — no marker, or a marker
with an unparsable payload — leaves the event chain exactly as it was. -/
theorem c10_plain_line_frame (line : Str) (st : List Str) (ch : List Json)
    (h : eventMarker.isPrefixOf line = false ∨
      jsonParse (line.drop eventMarker.length) = none) :
    (processEventLine line st ch).2 = ch := by
  have hdec : decodeEventLine line = none := by
    rcases h with h | h
    · rw [decodeEventLine, if_neg (by simp [h])]
    · rw [decodeEventLine]
      by_cases hp : eventMarker.isPrefixOf line
      · rw [if_pos hp, h]
      · rw [if_neg hp]
  rw [processEventLine_decode_none hdec]

/-- Witness for C10 at a plain line and at a malformed marker line. -/
theorem c10_witness :
    (processEventLine ("hello world".data) [("a".data)] []).2 = ([] : List Json) ∧
    (processEventLine ("__TRIGGER_EVENT__:\x7bnot valid json".data) []
      [Json.null]).2 = [Json.null] := by
  constructor
  · exact c10_plain_line_frame ("hello world".data) [("a".data)] [] (Or.inl (by rfl))
  · exact c10_plain_line_frame ("__TRIGGER_EVENT__:\x7bnot valid json".data) []
      [Json.null] (Or.inr (by rfl))

/-- Claim C6: on exit code 0 the invocation resolves, after the chain is
drained, with stdout the plain-output lines joined by newline in arrival
order, stderr the raw concatenation of the stderr chunks, and exit code 0. -/
theorem c6_exit_zero_resolves (env : HostOp → Bool) (w : Bool)
    (lines chunks : List Str) (path : Str) :
    (runInvocation env w lines chunks (some 0) path).2 =
      Except.ok ⟨List.intercalate newlineStr
          (lines.filter (fun l => (decodeEventLine l).isNone)),
        chunks.flatten, 0⟩ := by
  simp [runInvocation, processLines_eq, handleProcessClose, exitCodeOf]

/-- Claim C7: on a non-zero exit code, or a `null` code (signal termination,
mapped to the internal sentinel −1, which no real exit code maps to), the
invocation rejects with a message embedding the script path, the
human-readable reason, and the full captured stdout and stderr. -/
theorem c7_failure_rejects (env : HostOp → Bool) (w : Bool)
    (lines chunks : List Str) (path : Str) (code : Option Nat)
    (h : code = none ∨ ∃ n, code = some n ∧ n ≠ 0) :
    ∃ msg, (runInvocation env w lines chunks code path).2 = Except.error msg ∧
      path <:+: msg ∧
      (code = none →
        " was terminated by a signal".data <:+: msg ∧ exitCodeOf code = -1) ∧
      (∀ n, code = some n →
        (" exited with a non-zero code ".data ++ intToChars (n : Int)) <:+: msg) ∧
      (∀ n : Nat, exitCodeOf (some n) ≠ -1) ∧
      List.intercalate newlineStr
        (lines.filter (fun l => (decodeEventLine l).isNone)) <:+: msg ∧
      chunks.flatten <:+: msg := by
  have hsentinel : ∀ n : Nat, exitCodeOf (some n) ≠ -1 := by
    intro n
    simp only [exitCodeOf]
    omega
  rcases h with rfl | ⟨n, rfl, hn⟩
  · have hr : closeReason path (-1) = path ++ " was terminated by a signal".data := by
      rw [closeReason, if_pos rfl]
    refine ⟨closeMessage path (-1)
        (List.intercalate newlineStr (lines.filter (fun l => (decodeEventLine l).isNone)))
        chunks.flatten,
      ?_, ?_, fun _ => ⟨?_, rfl⟩, fun n hcon => Option.noConfusion hcon,
      hsentinel, ?_, ?_⟩
    · simp only [runInvocation, processLines_eq, handleProcessClose, exitCodeOf]
      rw [if_pos (by decide)]
    · exact ⟨[], " was terminated by a signal".data ++ ":\n".data ++
        List.intercalate newlineStr (lines.filter (fun l => (decodeEventLine l).isNone)) ++
        newlineStr ++ chunks.flatten, by simp [closeMessage, hr, List.append_assoc]⟩
    · exact ⟨path, ":\n".data ++
        List.intercalate newlineStr (lines.filter (fun l => (decodeEventLine l).isNone)) ++
        newlineStr ++ chunks.flatten, by simp [closeMessage, hr, List.append_assoc]⟩
    · exact ⟨closeReason path (-1) ++ ":\n".data, newlineStr ++ chunks.flatten,
        by simp [closeMessage, List.append_assoc]⟩
    · exact ⟨closeReason path (-1) ++ ":\n".data ++
        List.intercalate newlineStr (lines.filter (fun l => (decodeEventLine l).isNone)) ++
        newlineStr, [], by simp [closeMessage, List.append_assoc]⟩
  · have hne : (n : Int) ≠ -1 := by omega
    have hr : closeReason path (n : Int) =
        path ++ " exited with a non-zero code ".data ++ intToChars (n : Int) := by
      rw [closeReason, if_neg hne]
    refine ⟨closeMessage path (n : Int)
        (List.intercalate newlineStr (lines.filter (fun l => (decodeEventLine l).isNone)))
        chunks.flatten,
      ?_, ?_, fun hcon => Option.noConfusion hcon, ?_, hsentinel, ?_, ?_⟩
    · simp only [runInvocation, processLines_eq, handleProcessClose, exitCodeOf]
      rw [if_pos (by omega)]
    · exact ⟨[], " exited with a non-zero code ".data ++ intToChars (n : Int) ++
        ":\n".data ++
        List.intercalate newlineStr (lines.filter (fun l => (decodeEventLine l).isNone)) ++
        newlineStr ++ chunks.flatten, by simp [closeMessage, hr, List.append_assoc]⟩
    · intro n2 hn2
      have : n2 = n := (Option.some.inj hn2).symm
      subst this
      exact ⟨path, ":\n".data ++
        List.intercalate newlineStr (lines.filter (fun l => (decodeEventLine l).isNone)) ++
        newlineStr ++ chunks.flatten, by simp [closeMessage, hr, List.append_assoc]⟩
    · exact ⟨closeReason path (n : Int) ++ ":\n".data, newlineStr ++ chunks.flatten,
        by simp [closeMessage, List.append_assoc]⟩
    · exact ⟨closeReason path (n : Int) ++ ":\n".data ++
        List.intercalate newlineStr (lines.filter (fun l => (decodeEventLine l).isNone)) ++
        newlineStr, [], by simp [closeMessage, List.append_assoc]⟩

/-- Witness for C7 at exit code 7 with captured output. -/
theorem c7_witness :
    ∃ msg, (runInvocation (fun _ => true) true [("out".data)] [("err".data)]
        (some 7) ("s.rb".data)).2 = Except.error msg ∧
      ("s.rb".data : Str) <:+: msg ∧
      ((some 7 : Option Nat) = none →
        " was terminated by a signal".data <:+: msg ∧ exitCodeOf (some 7) = -1) ∧
      (∀ n, (some 7 : Option Nat) = some n →
        (" exited with a non-zero code ".data ++ intToChars (n : Int)) <:+: msg) ∧
      (∀ n : Nat, exitCodeOf (some n) ≠ -1) ∧
      List.intercalate newlineStr
        ([("out".data)].filter (fun l => (decodeEventLine l).isNone)) <:+: msg ∧
      ([("err".data)] : List Str).flatten <:+: msg :=
  c7_failure_rejects (fun _ => true) true [("out".data)] [("err".data)]
    ("s.rb".data) (some 7) (Or.inr ⟨7, rfl, by decide⟩)

/-- Claim C9 is false on the code: the bundle-exec `runRailsScript` variant
performs no file-existence check — with an existence oracle that reports the
script missing, it still proceeds to spawn instead of failing the
precondition phase. -/
theorem c9_counterexample :
    runRailsScriptPre (fun _ => false) ("ghost.rb".data) [] =
      SpawnDecision.spawn
        ["exec".data, "rails".data, "runner".data, "ghost.rb".data] := by rfl

/-- Claim C9 (amended): a missing (empty) script path is a synchronous
precondition failure before any spawn in both variants; the file-existence
precondition exists only in the standalone `runScript` variant — the
bundle-exec `runRailsScript` spawns whenever the path is non-empty, never
consulting the filesystem. -/
theorem c9_precondition_phase (fsExists : Str → Bool) (scriptPath : Str)
    (scriptArgs : List Str) :
    (scriptPath = [] →
      runRailsScriptPre fsExists scriptPath scriptArgs =
        SpawnDecision.precondition ("Script path is required".data) ∧
      runScriptPre fsExists scriptPath scriptArgs =
        SpawnDecision.precondition ("Script path is required".data)) ∧
    (scriptPath ≠ [] → fsExists scriptPath = false →
      runScriptPre fsExists scriptPath scriptArgs =
        SpawnDecision.precondition ("Script does not exist: ".data ++ scriptPath)) ∧
    (scriptPath ≠ [] →
      runRailsScriptPre fsExists scriptPath scriptArgs =
        SpawnDecision.spawn
          ("exec".data :: "rails".data :: "runner".data :: scriptPath :: scriptArgs)) := by
  refine ⟨?_, ?_, ?_⟩
  · intro he
    subst he
    exact ⟨rfl, rfl⟩
  · intro he hfs
    rw [runScriptPre, if_neg he, if_pos hfs]
  · intro he
    rw [runRailsScriptPre, if_neg he]

/-- Witness for the amended C9 at concrete paths. -/
theorem c9_witness :
    runScriptPre (fun _ => false) ("ghost.rb".data) [] =
      SpawnDecision.precondition ("Script does not exist: ".data ++ "ghost.rb".data) ∧
    runRailsScriptPre (fun _ => true) [] [] =
      SpawnDecision.precondition ("Script path is required".data) := by
  constructor
  · exact (c9_precondition_phase (fun _ => false) ("ghost.rb".data) []).2.1
      (by decide) rfl
  · exact ((c9_precondition_phase (fun _ => true) [] []).1 rfl).2

/-- Claim C8: the Ruby client's `log(message, **attrs)` emits one marker line
whose host-side decoding appends exactly one event to the chain, and whose
dispatch invokes the structured-log operation exactly once with that exact
message and an attributes mapping equal to `attrs` — passing no attributes
(undefined) rather than an empty mapping when `attrs` is empty.  Stated over
the escape-free fragment of JSON text (`safeStr`/`jsonSafe`), with `attrs`
keys distinct and different from the `type` and `message` keys, as the Ruby
hash-merge semantics requires for a faithful round trip. -/
theorem c8_log_round_trip (message : Str) (attrs : List (Str × Json))
    (hmsg : safeStr message = true)
    (hkeys : ∀ p ∈ attrs, safeStr p.1 = true ∧ p.1 ≠ typeKey ∧ p.1 ≠ messageKey)
    (hvals : ∀ p ∈ attrs, jsonSafe p.2 = true)
    (hnodup : (attrs.map Prod.fst).Nodup) :
    ∃ e, (∀ st ch, processEventLine (rubyLogLine message attrs) st ch = (st, ch ++ [e])) ∧
      (∀ env w, (runChained env w e).filterMap invokeOf =
        [HostOp.logLog (some (Json.str message))
          (if attrs.isEmpty then none else some attrs)]) := by
  have hmerge : rubyLogEvent message attrs =
      (typeKey, Json.str logTag) :: (messageKey, Json.str message) :: attrs := by
    rw [rubyLogEvent, rubyMerge]
    have hlt : lookupStr attrs typeKey = none := by
      rw [lookupStr]
      rw [List.find?_eq_none.mpr ?_]
      · rfl
      · intro p hp
        simp only [beq_iff_eq]
        exact (hkeys p hp).2.1
    have hlm : lookupStr attrs messageKey = none := by
      rw [lookupStr]
      rw [List.find?_eq_none.mpr ?_]
      · rfl
      · intro p hp
        simp only [beq_iff_eq]
        exact (hkeys p hp).2.2
    have hfilter : attrs.filter
        (fun q => (lookupStr [(typeKey, Json.str logTag),
          (messageKey, Json.str message)] q.1).isNone) = attrs := by
      rw [List.filter_eq_self]
      intro q hq
      have h1 := (hkeys q hq).2.1
      have h2 := (hkeys q hq).2.2
      rw [lookupStr, List.find?_cons_of_neg, List.find?_cons_of_neg]
      · rfl
      · simp only [beq_iff_eq]
        exact fun hc => h2 hc.symm
      · simp only [beq_iff_eq]
        exact fun hc => h1 hc.symm
    simp [hlt, hlm, hfilter]
  have hfieldsNodup : (((typeKey, Json.str logTag) :: (messageKey, Json.str message) ::
      attrs).map Prod.fst).Nodup := by
    simp only [List.map_cons, List.nodup_cons]
    refine ⟨?_, ?_, hnodup⟩
    · intro hc
      rcases List.mem_cons.mp hc with hc | hc
      · exact absurd hc (by decide)
      · obtain ⟨p, hp, hpk⟩ := List.mem_map.mp hc
        exact (hkeys p hp).2.1 hpk
    · intro hc
      obtain ⟨p, hp, hpk⟩ := List.mem_map.mp hc
      exact (hkeys p hp).2.2 hpk
  have hprops : jsObjProps ((typeKey, Json.str logTag) ::
      (messageKey, Json.str message) :: attrs) =
      (typeKey, Json.str logTag) :: (messageKey, Json.str message) :: attrs :=
    jsObjProps_nodup hfieldsNodup
  have hsafe : jsonSafe (Json.obj ((typeKey, Json.str logTag) ::
      (messageKey, Json.str message) :: attrs)) = true := by
    have hm : jsonSafeMembers ((typeKey, Json.str logTag) ::
        (messageKey, Json.str message) :: attrs) = true := by
      apply jsonSafeMembers_of_forall
      intro p hp
      rcases List.mem_cons.mp hp with rfl | hp
      · exact ⟨show safeStr typeKey = true by decide,
          show jsonSafe (Json.str logTag) = true by decide⟩
      · rcases List.mem_cons.mp hp with rfl | hp
        · exact ⟨show safeStr messageKey = true by decide,
            show jsonSafe (Json.str message) = true by simpa [jsonSafe] using hmsg⟩
        · exact ⟨(hkeys p hp).1, hvals p hp⟩
    simpa [jsonSafe] using hm
  have hdec : decodeEventLine (rubyLogLine message attrs) =
      some (Json.obj ((typeKey, Json.str logTag) ::
        (messageKey, Json.str message) :: attrs)) := by
    rw [decodeEventLine, rubyLogLine, if_pos (isPrefixOf_append_self _ _),
      List.drop_left, hmerge, jsonParse_generate hsafe]
  have hget_type : jsGet ((typeKey, Json.str logTag) ::
      (messageKey, Json.str message) :: attrs) typeKey = some (Json.str logTag) := by
    rw [jsGet, hprops, List.find?_cons_of_pos _ (by simp)]
    rfl
  have hget_msg : jsGet ((typeKey, Json.str logTag) ::
      (messageKey, Json.str message) :: attrs) messageKey = some (Json.str message) := by
    rw [jsGet, hprops, List.find?_cons_of_neg _ (by decide),
      List.find?_cons_of_pos _ (by simp)]
    rfl
  have hrest : jsRest ((typeKey, Json.str logTag) ::
      (messageKey, Json.str message) :: attrs) [typeKey, messageKey] = attrs := by
    rw [jsRest, hprops]
    have hdrop : List.filter (fun p => !([typeKey, messageKey].contains p.1))
        ((typeKey, Json.str logTag) :: (messageKey, Json.str message) :: attrs) =
        List.filter (fun p => !([typeKey, messageKey].contains p.1)) attrs := by
      rw [List.filter_cons_of_neg, List.filter_cons_of_neg]
      · show ¬(!([typeKey, messageKey].contains typeKey)) = true
        decide
      · show ¬(!([typeKey, messageKey].contains messageKey)) = true
        decide
    rw [hdrop, List.filter_eq_self]
    intro q hq
    have h1 := (hkeys q hq).2.1
    have h2 := (hkeys q hq).2.2
    simp [h1, h2]
  refine ⟨Json.obj ((typeKey, Json.str logTag) :: (messageKey, Json.str message) :: attrs),
    fun st ch => processEventLine_decode_some hdec st ch, ?_⟩
  intro env w
  have hh : handleTriggerEvent env
      (Json.obj ((typeKey, Json.str logTag) :: (messageKey, Json.str message) :: attrs)) =
      opRun env (HostOp.logLog (some (Json.str message))
        (if attrs.isEmpty then none else some attrs)) false := by
    simp only [handleTriggerEvent, hget_type, hget_msg, hrest]
    simp +decide
  cases henv : env (HostOp.logLog (some (Json.str message))
      (if attrs.isEmpty then none else some attrs)) with
  | false =>
    cases w <;> simp [runChained, hh, opRun, henv, ackWrites, invokeOf]
  | true =>
    cases w <;> simp [runChained, hh, opRun, henv, ackWrites, invokeOf]

/-- Witness for C8 at the spec's example: message `"processing row"` and
attributes `{index: 5}`, plus the empty-attributes convention. -/
theorem c8_witness :
    (∃ e, (∀ st ch, processEventLine
        (rubyLogLine ("processing row".data) [("index".data, Json.num 5)]) st ch =
          (st, ch ++ [e])) ∧
      (∀ env w, (runChained env w e).filterMap invokeOf =
        [HostOp.logLog (some (Json.str ("processing row".data)))
          (if ([("index".data, Json.num 5)] :
              List (Str × Json)).isEmpty then none
           else some [("index".data, Json.num 5)])])) ∧
    (∃ e, (∀ st ch, processEventLine (rubyLogLine ("hi".data) []) st ch =
          (st, ch ++ [e])) ∧
      (∀ env w, (runChained env w e).filterMap invokeOf =
        [HostOp.logLog (some (Json.str ("hi".data)))
          (if ([] : List (Str × Json)).isEmpty then none else some [])])) := by
  constructor
  · exact c8_log_round_trip ("processing row".data) [("index".data, Json.num 5)]
      (by decide)
      (by intro p hp; simp at hp; subst hp; exact ⟨by decide, by decide, by decide⟩)
      (by intro p hp; simp at hp; subst hp; rfl)
      (by simp)
  · exact c8_log_round_trip ("hi".data) []
      (by decide)
      (by intro p hp; cases hp)
      (by intro p hp; cases hp)
      (by simp)

end TriggerRails
